import Mathlib

/-!
# EVGuardian: feature extraction and label interpretation

A shallow embedding of `model_utils.h` and `ESP32_Sender/sim_config.h`.

The C++ type `float` is IEEE-754 binary32 and `double` is binary64; the
arithmetic below follows the language rules (usual arithmetic conversions,
round-to-nearest-even, narrowing on assignment to a `float` object). A formula
over sensor fields is read as the C++ expression, evaluated in that arithmetic.

The frame fragmenter and the reassembly are modelled from the specification,
the sender and receiver sketches not being among the source files.
-/

namespace EVGuardian

/-! ## IEEE-754 binary formats -/

/-- Field widths of a binary interchange format. -/
structure Fmt where
  ebits : Nat
  mbits : Nat
deriving DecidableEq

/-- The format of the C++ type float. -/
def binary32 : Fmt := ⟨8, 23⟩

/-- The format of the C++ type double. -/
def binary64 : Fmt := ⟨11, 52⟩

namespace Fmt

/-- Exponent and significand fields of an infinity, read as one integer. -/
def infMag (f : Fmt) : Nat := (2 ^ f.ebits - 1) * 2 ^ f.mbits

/-- Exponent bias. -/
def bias (f : Fmt) : Nat := 2 ^ (f.ebits - 1) - 1

/-- Every finite value of the format is an integer multiple of 2^(-scale). -/
def scale (f : Fmt) : Nat := f.bias - 1 + f.mbits

end Fmt

/-- A floating-point datum: the sign bit, and the exponent and significand
fields read together as one unsigned integer (exponent in the high bits). -/
structure FP (f : Fmt) where
  sign : Bool
  mag : Fin (2 ^ (f.ebits + f.mbits))
deriving DecidableEq

/-- The exponent and significand fields of an infinity, as a field value. -/
def Fmt.infFin (f : Fmt) : Fin (2 ^ (f.ebits + f.mbits)) :=
  ⟨f.infMag, by
    unfold Fmt.infMag
    rw [pow_add]
    exact Nat.mul_lt_mul_of_pos_right (Nat.sub_lt (Nat.two_pow_pos _) Nat.one_pos)
      (Nat.two_pow_pos _)⟩

abbrev F32 := FP binary32
abbrev F64 := FP binary64

/-- The result of an operation before rounding, as an extended rational:
`num neg n d` is the nonzero value ±n/d. -/
inductive Exact where
  | nan
  | inf (neg : Bool)
  | zero (neg : Bool)
  | num (neg : Bool) (n d : Nat)
deriving DecidableEq

namespace FP

variable {f : Fmt}

def isNaN (x : FP f) : Bool := decide (f.infMag < x.mag.val)

def isInf (x : FP f) : Bool := decide (x.mag.val = f.infMag)

def isFinite (x : FP f) : Bool := decide (x.mag.val < f.infMag)

/-- Magnitude of the finite datum with fields `k`, in units of 2^(-scale):
a subnormal has exponent field 0 and no implicit leading bit. -/
def intVal (f : Fmt) (k : Nat) : Nat :=
  if k / 2 ^ f.mbits = 0 then k % 2 ^ f.mbits
  else (2 ^ f.mbits + k % 2 ^ f.mbits) * 2 ^ (k / 2 ^ f.mbits - 1)

/-- The extended rational a datum denotes. -/
def toExact (x : FP f) : Exact :=
  if f.infMag < x.mag.val then Exact.nan
  else if x.mag.val = f.infMag then Exact.inf x.sign
  else if x.mag.val = 0 then Exact.zero x.sign
  else Exact.num x.sign (intVal f x.mag.val) (2 ^ f.scale)

end FP

/-- Number of halvings that bring n below 2, counted with at most `fuel` steps. -/
def ilog2Aux : Nat → Nat → Nat
  | 0, _ => 0
  | fuel + 1, n => if n < 2 then 0 else ilog2Aux fuel (n / 2) + 1

/-- Index of the highest set bit of n (0 for n = 0). -/
def ilog2 (n : Nat) : Nat := ilog2Aux n n

/-- Floor of the base-2 logarithm of the positive rational n/d. -/
def floorLog2 (n d : Nat) : Int :=
  if d * 2 ^ ilog2 n ≤ n * 2 ^ ilog2 d then (ilog2 n : Int) - ilog2 d
  else (ilog2 n : Int) - ilog2 d - 1

/-- Nearest integer to N/D, ties to even. -/
def roundHalfEven (N D : Nat) : Nat :=
  if 2 * (N % D) < D then N / D
  else if D < 2 * (N % D) then N / D + 1
  else if (N / D) % 2 = 0 then N / D else N / D + 1

/-- Exponent of the unit in the last place used to round n/d. -/
def ulpExp (f : Fmt) (n d : Nat) : Int :=
  max (floorLog2 n d - f.mbits) (-(f.scale : Int))

/-- The positive rational n/d in units of its last place, rounded to nearest,
ties to even: the significand of the rounded value, implicit bit included. -/
def roundSig (f : Fmt) (n d : Nat) : Nat :=
  if 0 ≤ ulpExp f n d then roundHalfEven n (d * 2 ^ (ulpExp f n d).toNat)
  else roundHalfEven (n * 2 ^ (-ulpExp f n d).toNat) d

/-- Round the positive rational n/d to nearest, ties to even, and return
the exponent and significand fields of the result; values too large for the
format give the fields of an infinity. -/
def roundMag (f : Fmt) (n d : Nat) : Nat :=
  min ((ulpExp f n d + f.scale).toNat * 2 ^ f.mbits + roundSig f n d) f.infMag

namespace FP

variable {f : Fmt}

/-- The default quiet NaN. -/
def qNaN (f : Fmt) : FP f :=
  ⟨false, ⟨min (f.infMag + 2 ^ (f.mbits - 1)) (2 ^ (f.ebits + f.mbits) - 1),
    lt_of_le_of_lt (Nat.min_le_right _ _) (Nat.sub_lt (Nat.two_pow_pos _) (by decide))⟩⟩

def posZero (f : Fmt) : FP f := ⟨false, ⟨0, Nat.two_pow_pos _⟩⟩

/-- Rounding of an exact result into the format (round to nearest, ties to even). -/
def ofExact (f : Fmt) : Exact → FP f
  | Exact.nan => qNaN f
  | Exact.inf s => ⟨s, f.infFin⟩
  | Exact.zero s => ⟨s, ⟨0, Nat.two_pow_pos _⟩⟩
  | Exact.num s n d =>
    ⟨s, ⟨roundMag f n d, lt_of_le_of_lt (Nat.min_le_right _ _) f.infFin.isLt⟩⟩

end FP

namespace Exact

/-- Exact product. -/
def mul : Exact → Exact → Exact
  | nan, _ => nan
  | _, nan => nan
  | inf _, zero _ => nan
  | zero _, inf _ => nan
  | inf s, inf t => inf (xor s t)
  | inf s, num t _ _ => inf (xor s t)
  | num s _ _, inf t => inf (xor s t)
  | zero s, zero t => zero (xor s t)
  | zero s, num t _ _ => zero (xor s t)
  | num s _ _, zero t => zero (xor s t)
  | num s n d, num t m e => num (xor s t) (n * m) (d * e)

/-- Exact quotient. -/
def div : Exact → Exact → Exact
  | nan, _ => nan
  | _, nan => nan
  | inf _, inf _ => nan
  | zero _, zero _ => nan
  | inf s, zero t => inf (xor s t)
  | inf s, num t _ _ => inf (xor s t)
  | num s _ _, zero t => inf (xor s t)
  | zero s, inf t => zero (xor s t)
  | zero s, num t _ _ => zero (xor s t)
  | num s _ _, inf t => zero (xor s t)
  | num s n d, num t m e => num (xor s t) (n * e) (d * m)

/-- Exact difference; an exact zero difference of nonzero operands is +0. -/
def sub : Exact → Exact → Exact
  | nan, _ => nan
  | _, nan => nan
  | inf s, inf t => if s = t then nan else inf s
  | inf s, zero _ => inf s
  | inf s, num _ _ _ => inf s
  | zero _, inf t => inf (!t)
  | num _ _ _, inf t => inf (!t)
  | zero s, zero t => zero (s && !t)
  | zero _, num t m e => num (!t) m e
  | num s n d, zero _ => num s n d
  | num s n d, num t m e =>
    if s = t then
      if n * e = m * d then zero false
      else if m * d < n * e then num s (n * e - m * d) (d * e)
      else num (!s) (m * d - n * e) (d * e)
    else num s (n * e + m * d) (d * e)

end Exact

namespace FP

variable {f : Fmt}

/-- Product `x * y` of two operands of one type. -/
def mul (x y : FP f) : FP f := ofExact f (Exact.mul x.toExact y.toExact)

/-- Quotient `x / y`. -/
def div (x y : FP f) : FP f := ofExact f (Exact.div x.toExact y.toExact)

/-- Difference `x - y`. -/
def sub (x y : FP f) : FP f := ofExact f (Exact.sub x.toExact y.toExact)

/-- Conversion to another format (promotion float to double, narrowing double to float). -/
def convert (g : Fmt) (x : FP f) : FP g := ofExact g x.toExact

/-- Position of a non-NaN datum on the number line, both zeros at 0. -/
def key (x : FP f) : Int := if x.sign then -(x.mag.val : Int) else (x.mag.val : Int)

/-- The comparison `x < y`: false when either operand is a NaN. -/
def lt (x y : FP f) : Bool := !x.isNaN && !y.isNaN && decide (x.key < y.key)

/-- The comparison `x <= y`: false when either operand is a NaN. -/
def le (x y : FP f) : Bool := !x.isNaN && !y.isNaN && decide (x.key ≤ y.key)

/-- The value of a decimal literal n/d (d a power of ten). -/
def lit (f : Fmt) (n d : Nat) : FP f :=
  if n = 0 then posZero f else ofExact f (Exact.num false n d)

end FP

/-! ## Raw sensor inputs (`model_utils.h`) -/

structure SafetySensors where
  pack_voltage : F32
  pack_current : F32
  cell_max_v : F32
  cell_min_v : F32
  pack_temp : F32
  inverter_temp : F32
  ambient_temp : F32
  coolant_flow : F32
  iso_resistance : F32
  gas_ppm : F32

structure HealthSensors where
  soc : F32
  internal_res : F32
  cycle_count : F32
  dod : F32
  cell_imbalance : F32
  coulombic_eff : F32
  pol_voltage : F32
  stress_index : F32

structure DriverSensors where
  speed_avg : F32
  brake_freq : F32
  brake_intensity : F32
  throttle_var : F32
  energy_consumption : F32
  range_est : F32

/-! ## Feature extraction -/

/-- The memory reached through the `float* features` argument: the element
stored at each offset from the pointer. -/
abbrev Buf := Nat → F32

/-- The store `features[i] = v`. -/
def Buf.set (features : Buf) (i : Nat) (v : F32) : Buf :=
  fun j => if j = i then v else features j

/-- Promotion of a float operand to double. -/
def widen (x : F32) : F64 := FP.convert binary64 x

/-- Conversion of a double value to float, on assignment to a float object. -/
def narrow (x : F64) : F32 := FP.convert binary32 x

/-- A double literal with the integral value n (`45.0`, `1000.0`, ...). -/
def dlit (n : Nat) : F64 := FP.lit binary64 n 1

/-- The function template `std::max`: `(a < b) ? b : a`. It is what the name
`max` denotes in a sketch built with the ESP32 Arduino core. -/
def std_max (a b : F64) : F64 := if FP.lt a b then b else a

/-- The function-like definition `((a)>(b)?(a):(b))` that the classic AVR
Arduino core gives the name `max`. -/
def avr_max (a b : F64) : F64 := if FP.lt b a then a else b

/-- `extract_safety_features`. The name `max` is declared by `<Arduino.h>`,
which is not part of the repository, so it is an argument here. -/
def extract_safety_features (max : F64 → F64 → F64) (data : SafetySensors)
    (features : Buf) : Buf :=
  let features := features.set 0 data.pack_voltage
  let features := features.set 1 data.pack_current
  let features := features.set 2
    (narrow (FP.div (widen (FP.mul data.pack_voltage data.pack_current)) (dlit 1000)))
  let features := features.set 3 data.cell_max_v
  let features := features.set 4 data.cell_min_v
  let features := features.set 5 data.pack_temp
  let features := features.set 6
    (narrow (FP.mul (widen (FP.sub data.cell_max_v data.cell_min_v)) (dlit 5)))
  let features := features.set 7 data.inverter_temp
  let features := features.set 8 data.ambient_temp
  let features := features.set 9 data.coolant_flow
  let features := features.set 10 data.iso_resistance
  let features := features.set 11 data.gas_ppm
  let temp_derating : F32 :=
    narrow (max (dlit 0) (FP.mul (FP.sub (widen data.pack_temp) (dlit 45)) (dlit 2)))
  features.set 12 (narrow (max (dlit 0) (FP.sub (dlit 150) (widen temp_derating))))

/-- `extract_health_features`. -/
def extract_health_features (data : HealthSensors) (features : Buf) : Buf :=
  let features := features.set 0 data.soc
  let features := features.set 1 data.internal_res
  let features := features.set 2 data.cycle_count
  let features := features.set 3 data.dod
  let features := features.set 4 data.cell_imbalance
  let features := features.set 5 data.coulombic_eff
  let features := features.set 6 data.pol_voltage
  features.set 7 data.stress_index

/-- `extract_driver_features`. -/
def extract_driver_features (data : DriverSensors) (features : Buf) : Buf :=
  let features := features.set 0 data.speed_avg
  let features := features.set 1 data.brake_freq
  let features := features.set 2 data.brake_intensity
  let features := features.set 3 data.throttle_var
  let features := features.set 4 data.energy_consumption
  features.set 5 data.range_est

/-! ## Prediction interpreters -/

/-- `get_safety_label`. -/
def get_safety_label (class_idx : Int) : String :=
  match class_idx with
  | 0 => "NORMAL"
  | 1 => "WARNING (Thermal/Elec Risk)"
  | 2 => "CRITICAL FAILURE"
  | _ => "UNKNOWN"

/-- `get_health_label`. -/
def get_health_label (class_idx : Int) : String :=
  if class_idx = 0 then "GOOD" else "BAD (Replace/Service)"

/-- `get_driver_label`. -/
def get_driver_label (class_idx : Int) : String :=
  match class_idx with
  | 0 => "CITY (Stop-and-Go)"
  | 1 => "HIGHWAY (Steady)"
  | 2 => "EMERGENCY (Panic)"
  | _ => "UNKNOWN"

/-! ## Bus configuration (`ESP32_Sender/sim_config.h`) -/

def CAN_CS_PIN : Nat := 5

def CAN_INT_PIN : Nat := 4

def CAN_ID_SAFETY_1 : Nat := 0x100

def CAN_ID_SAFETY_2 : Nat := 0x101

def CAN_ID_SAFETY_3 : Nat := 0x102

def CAN_ID_HEALTH_1 : Nat := 0x200

def CAN_ID_HEALTH_2 : Nat := 0x201

def CAN_ID_DRIVER_1 : Nat := 0x300

def CAN_ID_DRIVER_2 : Nat := 0x301

def UPDATE_RATE_MS : Nat := 100

/-- The identifiers defined for the Safety domain, in the order of their suffixes. -/
def safety_ids : List Nat := [CAN_ID_SAFETY_1, CAN_ID_SAFETY_2, CAN_ID_SAFETY_3]

/-- The identifiers defined for the Health domain, in the order of their suffixes. -/
def health_ids : List Nat := [CAN_ID_HEALTH_1, CAN_ID_HEALTH_2]

/-- The identifiers defined for the Driver domain, in the order of their suffixes. -/
def driver_ids : List Nat := [CAN_ID_DRIVER_1, CAN_ID_DRIVER_2]

/-- Size of the feature array of `extract_safety_features` (`Feature array [13]`). -/
def safety_feature_count : Nat := 13

/-- Size of the feature array of `extract_health_features` (`Feature array [8]`). -/
def health_feature_count : Nat := 8

/-- Size of the feature array of `extract_driver_features` (`Feature array [6]`). -/
def driver_feature_count : Nat := 6

/-- Bytes of one `float`. -/
def bytes_per_value : Nat := 4

/-- Payload bytes of one bus frame. -/
def frame_capacity : Nat := 8

/-- Least value of the C++ type int (32 bits). -/
def INT_MIN : Int := -2147483648

/-- Greatest value of the C++ type int (32 bits). -/
def INT_MAX : Int := 2147483647

/-! ## Frame fragmentation -/

/-- Modelled from the spec: the Frame of the data model, an identifier and a payload of
bytes; no frame type is declared in the source files at hand. -/
structure Frame where
  identifier : Nat
  payload : List Nat
deriving DecidableEq

/-- Modelled from the spec: the error kind EncodingOverflow that the FrameFragmenter
reports; the fragmenter is not among the source files at hand. -/
inductive FragmentError where
  | EncodingOverflow
deriving DecidableEq

/-- The 32 bits of a float as one integer, the sign bit highest. -/
def float_bits (x : F32) : Nat := (if x.sign then 2 ^ 31 else 0) + x.mag.val

/-- Modelled from the spec: the byte representation of one 32-bit float, 4 bytes in one
fixed order (least significant byte first); the serialisation code is not among the
source files at hand. -/
def float_bytes (x : F32) : List Nat :=
  [float_bits x % 256, float_bits x / 256 % 256, float_bits x / 65536 % 256,
    float_bits x / 16777216 % 256]

/-- Modelled from the spec: the float that four bytes in that order stand for, as the
receiving side reinterprets them. -/
def float_of_bytes (b0 b1 b2 b3 : Nat) : F32 :=
  ⟨decide ((b0 + 256 * b1 + 65536 * b2 + 16777216 * b3) / 2 ^ 31 % 2 = 1),
    ⟨(b0 + 256 * b1 + 65536 * b2 + 16777216 * b3) % 2 ^ 31,
      Nat.mod_lt _ (Nat.two_pow_pos _)⟩⟩

/-- Modelled from the spec: the byte representation of a feature vector, 4 bytes a
value, in vector order. -/
def vector_bytes (v : List F32) : List Nat := v.flatMap float_bytes

/-- Modelled from the spec: a byte sequence reinterpreted as 32-bit floats, four bytes
at a time. -/
def floats_of_bytes : List Nat → List F32
  | b0 :: b1 :: b2 :: b3 :: rest => float_of_bytes b0 b1 b2 b3 :: floats_of_bytes rest
  | _ => []

/-- Modelled from the spec: the bytes cut into payloads of at most 8 bytes, one frame for
each identifier of the list in turn, as long as bytes remain. -/
def fragment_bytes : List Nat → List Nat → List Frame
  | [], _ => []
  | id :: ids, bytes =>
    if bytes = [] then []
    else ⟨id, bytes.take frame_capacity⟩ :: fragment_bytes ids (bytes.drop frame_capacity)

/-- Modelled from the spec: the FrameFragmenter, with the policy the spec asks to be
explicit: a vector that exceeds the identifier budget is reported as EncodingOverflow,
any other vector is cut into frames addressed by the identifiers in their order. The
fragmenter is not among the source files at hand. -/
def fragment (ids : List Nat) (v : List F32) : Except FragmentError (List Frame) :=
  if ids.length * frame_capacity < bytes_per_value * v.length then
    Except.error FragmentError.EncodingOverflow
  else Except.ok (fragment_bytes ids (vector_bytes v))

/-- Modelled from the spec: the reassembly by the receiving collaborator: the payloads
concatenated in ascending identifier order and reinterpreted as floats. -/
def reassemble (frames : List Frame) : List F32 :=
  floats_of_bytes
    ((frames.insertionSort (fun a b => a.identifier ≤ b.identifier)).flatMap Frame.payload)

/-- The feature vector an extractor leaves in the first n positions of the buffer. -/
def feature_vector (features : Buf) (n : Nat) : List F32 := (List.range n).map features

/-! ## Sample inputs -/

/-- A float literal with the decimal value n/d. -/
def flit (n d : Nat) : F32 := FP.lit binary32 n d

/-- A buffer that holds +0.0 at every offset. -/
def zero_features : Buf := fun _ => FP.posZero binary32

/-- A reading whose cell maximum (3.95 V) lies below its cell minimum (4.05 V). -/
def reversed_cells : SafetySensors :=
  { pack_voltage := flit 380 1, pack_current := flit 50 1, cell_max_v := flit 395 100,
    cell_min_v := flit 405 100, pack_temp := flit 40 1, inverter_temp := flit 55 1,
    ambient_temp := flit 25 1, coolant_flow := flit 5 1, iso_resistance := flit 1200 1,
    gas_ppm := flit 0 1 }

/-- The reading of the first scenario: 380.0 V, 50.0 A, cells 4.05 V and 3.95 V, pack
at 40, inverter at 55, ambient at 25, coolant flow 5.0, insulation 1200, gas 0. -/
def scenario : SafetySensors :=
  { pack_voltage := flit 380 1, pack_current := flit 50 1, cell_max_v := flit 405 100,
    cell_min_v := flit 395 100, pack_temp := flit 40 1, inverter_temp := flit 55 1,
    ambient_temp := flit 25 1, coolant_flow := flit 5 1, iso_resistance := flit 1200 1,
    gas_ppm := flit 0 1 }

/-- The reading of the second scenario: the first one with the pack at 60. -/
def scenario_hot : SafetySensors :=
  { scenario with pack_temp := flit 60 1 }

/-- The float with the given sign, exponent field and significand field. -/
def fbits (sign : Bool) (e m : Nat) : F32 :=
  ⟨sign, ⟨(e * 2 ^ 23 + m) % 2 ^ 31, Nat.mod_lt _ (Nat.two_pow_pos _)⟩⟩

/-- A reading whose pack temperature is a NaN. -/
def nan_temp : SafetySensors :=
  { reversed_cells with pack_temp := FP.qNaN binary32 }

/-! ## Predicates used in the proofs -/

/-- The datum is not a NaN and is a zero (of either sign) or positive. -/
def FP.NonNeg {f : Fmt} (x : FP f) : Prop :=
  x.mag.val ≤ f.infMag ∧ (x.sign = false ∨ x.mag.val = 0)

/-- The datum is a zero or positive, with exponent and significand fields at most k. -/
def FP.UpTo {f : Fmt} (x : FP f) (k : Nat) : Prop :=
  x.mag.val ≤ k ∧ (x.sign = false ∨ x.mag.val = 0)

/-! ## Order of exact results and of data -/

namespace Exact

/-- The rational a finite exact result denotes (0 for a NaN or an infinity). -/
def val : Exact → ℚ
  | num s n d => if s then -((n : ℚ) / d) else (n : ℚ) / d
  | _ => 0

/-- The exact result is a zero or a nonzero rational. -/
def isFin : Exact → Bool
  | zero _ => true
  | num _ _ _ => true
  | _ => false

/-- Numerator and denominator of a nonzero rational are positive. -/
def WF : Exact → Prop
  | num _ n d => 0 < n ∧ 0 < d
  | _ => True

/-- The order of the extended rationals, on exact results that are not NaN. -/
def leq (a b : Exact) : Prop :=
  a = inf true ∨ b = inf false ∨ (a.isFin = true ∧ b.isFin = true ∧ a.val ≤ b.val)

end Exact

/-- Neither datum is a NaN and `x <= y` on the number line. -/
def FP.Leq {f : Fmt} (x y : FP f) : Prop :=
  x.mag.val ≤ f.infMag ∧ y.mag.val ≤ f.infMag ∧ x.key ≤ y.key

/-! ## Rounding: supporting lemmas -/

theorem ilog2Aux_spec (fuel : Nat) : ∀ n, n ≤ fuel → 0 < n →
    2 ^ ilog2Aux fuel n ≤ n ∧ n < 2 ^ (ilog2Aux fuel n + 1) := by
  induction fuel with
  | zero => intro n h1 h2; omega
  | succ k ih =>
    intro n h1 h2
    unfold ilog2Aux
    by_cases h : n < 2
    · simp only [h, if_true]
      constructor <;> simp <;> omega
    · simp only [h, if_false]
      have := ih (n / 2) (by omega) (by omega)
      rw [pow_succ, pow_succ]
      omega

theorem ilog2_spec (n : Nat) (h : 0 < n) : 2 ^ ilog2 n ≤ n ∧ n < 2 ^ (ilog2 n + 1) :=
  ilog2Aux_spec n n le_rfl h

theorem floorLog2_spec (n d : Nat) (hn : 0 < n) (hd : 0 < d) :
    (2 : ℚ) ^ (floorLog2 n d) ≤ (n : ℚ) / d ∧ (n : ℚ) / d < (2 : ℚ) ^ (floorLog2 n d + 1) := by
  obtain ⟨ha1, ha2⟩ := ilog2_spec n hn
  obtain ⟨hb1, hb2⟩ := ilog2_spec d hd
  have hdq : (0 : ℚ) < d := by exact_mod_cast hd
  have hnq : (0 : ℚ) < n := by exact_mod_cast hn
  have ha1q : (2 : ℚ) ^ ilog2 n ≤ n := by exact_mod_cast ha1
  have ha2q : (n : ℚ) < 2 ^ (ilog2 n + 1) := by exact_mod_cast ha2
  have hb1q : (2 : ℚ) ^ ilog2 d ≤ d := by exact_mod_cast hb1
  have hb2q : (d : ℚ) < 2 ^ (ilog2 d + 1) := by exact_mod_cast hb2
  have pa : (0 : ℚ) < 2 ^ ilog2 n := by positivity
  have pb : (0 : ℚ) < 2 ^ ilog2 d := by positivity
  have two : (2 : ℚ) ≠ 0 := by norm_num
  unfold floorLog2
  by_cases c : d * 2 ^ ilog2 n ≤ n * 2 ^ ilog2 d
  · simp only [c, if_true]
    have cq : (d : ℚ) * 2 ^ ilog2 n ≤ n * 2 ^ ilog2 d := by exact_mod_cast c
    have e1 : (2 : ℚ) ^ ((ilog2 n : ℤ) - ilog2 d) = 2 ^ ilog2 n / 2 ^ ilog2 d := by
      rw [zpow_sub₀ two, zpow_natCast, zpow_natCast]
    have e2 : (2 : ℚ) ^ ((ilog2 n : ℤ) - ilog2 d + 1) = 2 ^ (ilog2 n + 1) / 2 ^ ilog2 d := by
      rw [zpow_add_one₀ two, e1, pow_succ]; ring
    rw [e1, e2]
    constructor
    · rw [div_le_div_iff₀ pb hdq]; linarith
    · rw [div_lt_div_iff₀ hdq pb]
      calc (n : ℚ) * 2 ^ ilog2 d < 2 ^ (ilog2 n + 1) * 2 ^ ilog2 d :=
            mul_lt_mul_of_pos_right ha2q pb
        _ ≤ 2 ^ (ilog2 n + 1) * d := mul_le_mul_of_nonneg_left hb1q (by positivity)
  · simp only [c, if_false]
    have cq : (n : ℚ) * 2 ^ ilog2 d < d * 2 ^ ilog2 n := by
      have := Nat.lt_of_not_le c
      exact_mod_cast this
    have e1 : (2 : ℚ) ^ ((ilog2 n : ℤ) - ilog2 d - 1) = 2 ^ ilog2 n / 2 ^ (ilog2 d + 1) := by
      rw [sub_sub, zpow_sub₀ two]
      have : ((ilog2 d : ℤ) + 1) = ((ilog2 d + 1 : ℕ) : ℤ) := by push_cast; ring
      rw [this, zpow_natCast, zpow_natCast]
    have e2 : (2 : ℚ) ^ ((ilog2 n : ℤ) - ilog2 d - 1 + 1) = 2 ^ ilog2 n / 2 ^ ilog2 d := by
      rw [sub_add_cancel, zpow_sub₀ two, zpow_natCast, zpow_natCast]
    rw [e1, e2]
    constructor
    · rw [div_le_div_iff₀ (by positivity) hdq]
      calc (2 : ℚ) ^ ilog2 n * d ≤ n * d := mul_le_mul_of_nonneg_right ha1q hdq.le
        _ ≤ n * 2 ^ (ilog2 d + 1) := mul_le_mul_of_nonneg_left hb2q.le hnq.le
    · rw [div_lt_div_iff₀ hdq pb]; linarith


theorem roundHalfEven_floor_le (N D : Nat) : N / D ≤ roundHalfEven N D := by
  unfold roundHalfEven
  split_ifs <;> omega

theorem roundHalfEven_le_succ (N D : Nat) : roundHalfEven N D ≤ N / D + 1 := by
  unfold roundHalfEven
  split_ifs <;> omega

/-- Rounding does not go below an integer that the argument reaches. -/
theorem le_roundHalfEven (N D a : Nat) (hD : 0 < D) (h : a * D ≤ N) :
    a ≤ roundHalfEven N D :=
  le_trans ((Nat.le_div_iff_mul_le hD).2 h) (roundHalfEven_floor_le N D)

/-- Rounding does not go above an integer that bounds the argument. -/
theorem roundHalfEven_le (N D a : Nat) (hD : 0 < D) (h : N ≤ a * D) :
    roundHalfEven N D ≤ a := by
  rcases Nat.lt_or_ge N (a * D) with h1 | h1
  · have : N / D < a := (Nat.div_lt_iff_lt_mul hD).2 h1
    have := roundHalfEven_le_succ N D
    omega
  · have e : N = a * D := le_antisymm h h1
    subst e
    unfold roundHalfEven
    simp [Nat.mul_mod_left, Nat.mul_div_cancel _ hD, hD]

theorem roundHalfEven_mono (N₁ D₁ N₂ D₂ : Nat) (h₁ : 0 < D₁) (h₂ : 0 < D₂)
    (h : N₁ * D₂ ≤ N₂ * D₁) : roundHalfEven N₁ D₁ ≤ roundHalfEven N₂ D₂ := by
  have d1 := Nat.div_add_mod N₁ D₁
  have d2 := Nat.div_add_mod N₂ D₂
  have r1 := Nat.mod_lt N₁ h₁
  have r2 := Nat.mod_lt N₂ h₂
  rcases Nat.lt_or_ge (N₁ / D₁) (N₂ / D₂) with c | c
  · have := roundHalfEven_le_succ N₁ D₁
    have := roundHalfEven_floor_le N₂ D₂
    omega
  · -- the integer parts agree
    have hq : N₁ / D₁ = N₂ / D₂ := by
      apply le_antisymm _ c
      rw [Nat.le_div_iff_mul_le h₂]
      have : N₁ / D₁ * D₁ ≤ N₁ := Nat.div_mul_le_self _ _
      have h3 : N₁ / D₁ * D₂ * D₁ ≤ N₂ * D₁ := by nlinarith
      exact Nat.le_of_mul_le_mul_right h3 h₁
    -- hence the fractional parts are ordered
    have hr : N₁ % D₁ * D₂ ≤ N₂ % D₂ * D₁ := by
      have e1 : N₁ * D₂ = D₁ * (N₁ / D₁) * D₂ + N₁ % D₁ * D₂ := by
        conv_lhs => rw [← d1]
        ring
      have e2 : N₂ * D₁ = D₂ * (N₂ / D₂) * D₁ + N₂ % D₂ * D₁ := by
        conv_lhs => rw [← d2]
        ring
      rw [hq] at e1
      have e3 : D₁ * (N₂ / D₂) * D₂ = D₂ * (N₂ / D₂) * D₁ := by ring
      omega
    unfold roundHalfEven
    rw [hq]
    by_cases u1 : 2 * (N₁ % D₁) < D₁
    · simp only [u1, if_true]
      split_ifs <;> omega
    · simp only [u1, if_false]
      by_cases u2 : D₁ < 2 * (N₁ % D₁)
      · have : D₂ < 2 * (N₂ % D₂) := by
          by_contra hc
          have hc : 2 * (N₂ % D₂) ≤ D₂ := Nat.le_of_not_lt hc
          nlinarith
        have n2 : ¬ 2 * (N₂ % D₂) < D₂ := by omega
        simp only [u2, this, n2, if_true, if_false]
        exact le_rfl
      · have e : 2 * (N₁ % D₁) = D₁ := by omega
        have : D₂ ≤ 2 * (N₂ % D₂) := by
          by_contra hc
          have hc : 2 * (N₂ % D₂) < D₂ := Nat.lt_of_not_le hc
          nlinarith
        have n2 : ¬ 2 * (N₂ % D₂) < D₂ := by omega
        simp only [u2, n2, if_false]
        split_ifs <;> omega


theorem roundHalfEven_mono_rat (N₁ D₁ N₂ D₂ : Nat) (h₁ : 0 < D₁) (h₂ : 0 < D₂)
    (h : (N₁ : ℚ) / D₁ ≤ (N₂ : ℚ) / D₂) : roundHalfEven N₁ D₁ ≤ roundHalfEven N₂ D₂ := by
  apply roundHalfEven_mono _ _ _ _ h₁ h₂
  have a : (0 : ℚ) < D₁ := by exact_mod_cast h₁
  have b : (0 : ℚ) < D₂ := by exact_mod_cast h₂
  rw [div_le_div_iff₀ a b] at h
  exact_mod_cast h

theorem le_roundHalfEven_rat (N D a : Nat) (hD : 0 < D) (h : (a : ℚ) ≤ (N : ℚ) / D) :
    a ≤ roundHalfEven N D := by
  apply le_roundHalfEven _ _ _ hD
  have b : (0 : ℚ) < D := by exact_mod_cast hD
  rw [le_div_iff₀ b] at h
  exact_mod_cast h

theorem roundHalfEven_le_rat (N D a : Nat) (hD : 0 < D) (h : (N : ℚ) / D ≤ (a : ℚ)) :
    roundHalfEven N D ≤ a := by
  apply roundHalfEven_le _ _ _ hD
  have b : (0 : ℚ) < D := by exact_mod_cast hD
  rw [div_le_iff₀ b] at h
  exact_mod_cast h

/-- The significand is the rounding of n/d scaled by its unit in the last place. -/
theorem roundSig_eq (f : Fmt) (n d : Nat) (hd : 0 < d) :
    ∃ N D : Nat, 0 < D ∧ roundSig f n d = roundHalfEven N D ∧
      (N : ℚ) / D = (n : ℚ) / d / (2 : ℚ) ^ (ulpExp f n d) := by
  have hdq : (0 : ℚ) < d := by exact_mod_cast hd
  unfold roundSig
  by_cases h : 0 ≤ ulpExp f n d
  · refine ⟨n, d * 2 ^ (ulpExp f n d).toNat, Nat.mul_pos hd (Nat.two_pow_pos _), ?_, ?_⟩
    · simp only [h, if_true]
    · have e : (2 : ℚ) ^ (ulpExp f n d) = (2 : ℚ) ^ (ulpExp f n d).toNat := by
        conv_lhs => rw [← Int.toNat_of_nonneg h]
        rw [zpow_natCast]
      rw [e]
      push_cast
      rw [div_div]
  · refine ⟨n * 2 ^ (-ulpExp f n d).toNat, d, hd, ?_, ?_⟩
    · simp only [h, if_false]
    · have h' : 0 ≤ -ulpExp f n d := by omega
      have e : (2 : ℚ) ^ (ulpExp f n d) = ((2 : ℚ) ^ (-ulpExp f n d).toNat)⁻¹ := by
        rw [← zpow_natCast, Int.toNat_of_nonneg h', zpow_neg, inv_inv]
      rw [e]
      push_cast
      field_simp


theorem floorLog2_mono (n₁ d₁ n₂ d₂ : Nat) (hn₁ : 0 < n₁) (hd₁ : 0 < d₁) (hn₂ : 0 < n₂)
    (hd₂ : 0 < d₂) (h : (n₁ : ℚ) / d₁ ≤ (n₂ : ℚ) / d₂) :
    floorLog2 n₁ d₁ ≤ floorLog2 n₂ d₂ := by
  by_contra hc
  have hc : floorLog2 n₂ d₂ + 1 ≤ floorLog2 n₁ d₁ := by omega
  have s1 := (floorLog2_spec n₁ d₁ hn₁ hd₁).1
  have s2 := (floorLog2_spec n₂ d₂ hn₂ hd₂).2
  have : (2 : ℚ) ^ (floorLog2 n₂ d₂ + 1) ≤ (2 : ℚ) ^ (floorLog2 n₁ d₁) :=
    zpow_le_zpow_right₀ (by norm_num) hc
  linarith

/-- The scaled value stays below two to the precision. -/
theorem scaled_lt (f : Fmt) (n d : Nat) (hn : 0 < n) (hd : 0 < d) :
    (n : ℚ) / d / (2 : ℚ) ^ (ulpExp f n d) < ((2 ^ (f.mbits + 1) : ℕ) : ℚ) := by
  have s := (floorLog2_spec n d hn hd).2
  have two : (2 : ℚ) ≠ 0 := by norm_num
  have pe : (0 : ℚ) < (2 : ℚ) ^ (ulpExp f n d) := by positivity
  rw [div_lt_iff₀ pe]
  have hle : floorLog2 n d + 1 ≤ ((f.mbits + 1 : ℕ) : ℤ) + ulpExp f n d := by
    unfold ulpExp; push_cast; omega
  calc (n : ℚ) / d < (2 : ℚ) ^ (floorLog2 n d + 1) := s
    _ ≤ (2 : ℚ) ^ (((f.mbits + 1 : ℕ) : ℤ) + ulpExp f n d) :=
        zpow_le_zpow_right₀ (by norm_num) hle
    _ = ((2 ^ (f.mbits + 1) : ℕ) : ℚ) * (2 : ℚ) ^ (ulpExp f n d) := by
        rw [zpow_add₀ two, zpow_natCast]; push_cast; ring

/-- Above the subnormal range the scaled value has its leading bit set. -/
theorem le_scaled (f : Fmt) (n d : Nat) (hn : 0 < n) (hd : 0 < d)
    (h : -(f.scale : ℤ) < ulpExp f n d) :
    ((2 ^ f.mbits : ℕ) : ℚ) ≤ (n : ℚ) / d / (2 : ℚ) ^ (ulpExp f n d) := by
  have s := (floorLog2_spec n d hn hd).1
  have two : (2 : ℚ) ≠ 0 := by norm_num
  have pe : (0 : ℚ) < (2 : ℚ) ^ (ulpExp f n d) := by positivity
  rw [le_div_iff₀ pe]
  have he : ((f.mbits : ℕ) : ℤ) + ulpExp f n d = floorLog2 n d := by
    unfold ulpExp at h ⊢; omega
  calc ((2 ^ f.mbits : ℕ) : ℚ) * (2 : ℚ) ^ (ulpExp f n d)
      = (2 : ℚ) ^ (((f.mbits : ℕ) : ℤ) + ulpExp f n d) := by
        rw [zpow_add₀ two, zpow_natCast]; push_cast; ring
    _ = (2 : ℚ) ^ (floorLog2 n d) := by rw [he]
    _ ≤ (n : ℚ) / d := s

theorem ulpExp_ge (f : Fmt) (n d : Nat) : -(f.scale : ℤ) ≤ ulpExp f n d := by
  unfold ulpExp; omega

/-- Rounding to nearest is monotone. -/
theorem roundMag_mono (f : Fmt) (n₁ d₁ n₂ d₂ : Nat) (hn₁ : 0 < n₁) (hd₁ : 0 < d₁)
    (hn₂ : 0 < n₂) (hd₂ : 0 < d₂) (h : n₁ * d₂ ≤ n₂ * d₁) :
    roundMag f n₁ d₁ ≤ roundMag f n₂ d₂ := by
  have hq : (n₁ : ℚ) / d₁ ≤ (n₂ : ℚ) / d₂ := by
    have a : (0 : ℚ) < d₁ := by exact_mod_cast hd₁
    have b : (0 : ℚ) < d₂ := by exact_mod_cast hd₂
    rw [div_le_div_iff₀ a b]
    exact_mod_cast h
  have hL := floorLog2_mono n₁ d₁ n₂ d₂ hn₁ hd₁ hn₂ hd₂ hq
  have he : ulpExp f n₁ d₁ ≤ ulpExp f n₂ d₂ := by
    unfold ulpExp; omega
  obtain ⟨N₁, D₁, p₁, r₁, x₁⟩ := roundSig_eq f n₁ d₁ hd₁
  obtain ⟨N₂, D₂, p₂, r₂, x₂⟩ := roundSig_eq f n₂ d₂ hd₂
  unfold roundMag
  apply min_le_min _ le_rfl
  rcases lt_or_eq_of_le he with c | c
  · -- the second value lies in a higher binade
    have g1 := ulpExp_ge f n₁ d₁
    have u1 : roundSig f n₁ d₁ ≤ 2 ^ (f.mbits + 1) := by
      rw [r₁]
      apply roundHalfEven_le_rat _ _ _ p₁
      rw [x₁]
      exact (scaled_lt f n₁ d₁ hn₁ hd₁).le
    have l2 : 2 ^ f.mbits ≤ roundSig f n₂ d₂ := by
      rw [r₂]
      apply le_roundHalfEven_rat _ _ _ p₂
      rw [x₂]
      exact le_scaled f n₂ d₂ hn₂ hd₂ (by omega)
    have hA : (ulpExp f n₁ d₁ + f.scale).toNat + 1 ≤ (ulpExp f n₂ d₂ + f.scale).toNat := by
      omega
    have hm := Nat.mul_le_mul_right (2 ^ f.mbits) hA
    rw [pow_succ] at u1
    rw [Nat.add_mul] at hm
    omega
  · rw [c]
    apply Nat.add_le_add_left
    rw [r₁, r₂]
    apply roundHalfEven_mono_rat _ _ _ _ p₁ p₂
    rw [x₁, x₂, c]
    exact div_le_div_of_nonneg_right hq (by positivity)


theorem intVal_pos (f : Fmt) (k : Nat) (hk : 0 < k) : 0 < FP.intVal f k := by
  unfold FP.intVal
  have hP : 0 < 2 ^ f.mbits := Nat.two_pow_pos _
  by_cases h : k / 2 ^ f.mbits = 0
  · simp only [h, if_true]
    have := Nat.div_add_mod k (2 ^ f.mbits)
    rw [h] at this
    omega
  · simp only [h, if_false]
    exact Nat.mul_pos (by omega) (Nat.two_pow_pos _)

theorem intVal_mono_aux (P E₁ M₁ E₂ M₂ : Nat) (r₁ : M₁ < P)
    (r₂ : M₂ < P) (h : P * E₁ + M₁ ≤ P * E₂ + M₂) :
    (if E₁ = 0 then M₁ else (P + M₁) * 2 ^ (E₁ - 1)) ≤
    (if E₂ = 0 then M₂ else (P + M₂) * 2 ^ (E₂ - 1)) := by
  have hE : E₁ ≤ E₂ := by
    by_contra hc
    have : P * (E₂ + 1) ≤ P * E₁ := Nat.mul_le_mul_left _ (by omega)
    rw [Nat.mul_add] at this
    omega
  by_cases h1 : E₁ = 0
  · simp only [h1, if_true]
    by_cases h2 : E₂ = 0
    · simp only [h2, if_true]
      subst h1; subst h2
      omega
    · simp only [h2, if_false]
      have : 1 ≤ 2 ^ (E₂ - 1) := Nat.two_pow_pos _
      calc M₁ ≤ (P + M₂) * 1 := by omega
        _ ≤ (P + M₂) * 2 ^ (E₂ - 1) := Nat.mul_le_mul_left _ this
  · have h2 : ¬ E₂ = 0 := by omega
    simp only [h1, h2, if_false]
    rcases lt_or_eq_of_le hE with c | c
    · have e1 : E₁ - 1 + 1 ≤ E₂ - 1 := by omega
      have p1 : 2 ^ (E₁ - 1 + 1) ≤ 2 ^ (E₂ - 1) := Nat.pow_le_pow_right (by decide) e1
      calc (P + M₁) * 2 ^ (E₁ - 1) ≤ (P * 2) * 2 ^ (E₁ - 1) :=
            Nat.mul_le_mul_right _ (by omega)
        _ = P * 2 ^ (E₁ - 1 + 1) := by rw [pow_succ]; ring
        _ ≤ P * 2 ^ (E₂ - 1) := Nat.mul_le_mul_left _ p1
        _ ≤ (P + M₂) * 2 ^ (E₂ - 1) := Nat.mul_le_mul_right _ (by omega)
    · subst c
      exact Nat.mul_le_mul_right _ (by omega)

/-- The value of a finite datum grows with its exponent and significand fields. -/
theorem intVal_mono (f : Fmt) (k₁ k₂ : Nat) (h : k₁ ≤ k₂) :
    FP.intVal f k₁ ≤ FP.intVal f k₂ := by
  have hP : 0 < 2 ^ f.mbits := Nat.two_pow_pos _
  have m1 := Nat.div_add_mod k₁ (2 ^ f.mbits)
  have m2 := Nat.div_add_mod k₂ (2 ^ f.mbits)
  have r1 := Nat.mod_lt k₁ hP
  have r2 := Nat.mod_lt k₂ hP
  unfold FP.intVal
  apply intVal_mono_aux _ _ _ _ _ r1 r2
  omega

theorem toExact_of_not_nan {f : Fmt} (x : FP f) (hm : x.mag.val ≤ f.infMag) :
    x.toExact = if x.mag.val = f.infMag then Exact.inf x.sign
      else if x.mag.val = 0 then Exact.zero x.sign
      else Exact.num x.sign (FP.intVal f x.mag.val) (2 ^ f.scale) := by
  unfold FP.toExact
  rw [if_neg (not_lt.2 hm)]

/-- A datum that is not a NaN denotes an infinity, a zero or a nonzero rational. -/
theorem toExact_cases {f : Fmt} (x : FP f) (hm : x.mag.val ≤ f.infMag) :
    (x.mag.val = f.infMag ∧ x.toExact = Exact.inf x.sign) ∨
    (x.mag.val = 0 ∧ x.toExact = Exact.zero x.sign) ∨
    (0 < x.mag.val ∧ x.mag.val < f.infMag ∧
      x.toExact = Exact.num x.sign (FP.intVal f x.mag.val) (2 ^ f.scale)) := by
  rw [toExact_of_not_nan x hm]
  by_cases c1 : x.mag.val = f.infMag
  · left; exact ⟨c1, by rw [if_pos c1]⟩
  · by_cases c2 : x.mag.val = 0
    · right; left; exact ⟨c2, by rw [if_neg c1, if_pos c2]⟩
    · right; right
      exact ⟨Nat.pos_of_ne_zero c2, lt_of_le_of_ne hm c1, by rw [if_neg c1, if_neg c2]⟩

theorem roundMag_le_inf (f : Fmt) (n d : Nat) : roundMag f n d ≤ f.infMag :=
  Nat.min_le_right _ _

theorem lt_iff {f : Fmt} (a b : FP f) : FP.lt a b = true ↔
    a.mag.val ≤ f.infMag ∧ b.mag.val ≤ f.infMag ∧ a.key < b.key := by
  unfold FP.lt FP.isNaN
  simp only [Bool.and_eq_true, Bool.not_eq_true', decide_eq_false_iff_not, not_lt,
    decide_eq_true_eq, and_assoc]

theorem le_iff {f : Fmt} (a b : FP f) : FP.le a b = true ↔
    a.mag.val ≤ f.infMag ∧ b.mag.val ≤ f.infMag ∧ a.key ≤ b.key := by
  unfold FP.le FP.isNaN
  simp only [Bool.and_eq_true, Bool.not_eq_true', decide_eq_false_iff_not, not_lt,
    decide_eq_true_eq, and_assoc]

theorem key_nonneg_iff {f : Fmt} (x : FP f) :
    0 ≤ x.key ↔ (x.sign = false ∨ x.mag.val = 0) := by
  unfold FP.key
  cases x.sign <;> simp

theorem dlit0_key : (dlit 0).key = 0 := by decide

theorem dlit0_not_nan : (dlit 0).mag.val ≤ binary64.infMag := by decide

/-- With `std::max`, `max(0.0, y)` is +0.0 or y, and in both cases zero or positive;
a NaN y gives +0.0. -/
theorem std_max_zero (y : F64) :
    (std_max (dlit 0) y).NonNeg ∧ (std_max (dlit 0) y = dlit 0 ∨ std_max (dlit 0) y = y) := by
  unfold std_max
  by_cases h : FP.lt (dlit 0) y = true
  · rw [if_pos h]
    obtain ⟨_, hn, hk⟩ := (lt_iff _ _).1 h
    rw [dlit0_key] at hk
    exact ⟨⟨hn, (key_nonneg_iff y).1 hk.le⟩, Or.inr rfl⟩
  · rw [if_neg h]
    exact ⟨⟨dlit0_not_nan, Or.inl (by decide)⟩, Or.inl rfl⟩

/-- With the function-like `max`, `max(0.0, y)` for y not a NaN is +0.0 or y, and in
both cases zero or positive. -/
theorem avr_max_zero (y : F64) (hy : y.mag.val ≤ binary64.infMag) :
    (avr_max (dlit 0) y).NonNeg ∧ (avr_max (dlit 0) y = dlit 0 ∨ avr_max (dlit 0) y = y) := by
  unfold avr_max
  by_cases h : FP.lt y (dlit 0) = true
  · rw [if_pos h]
    exact ⟨⟨dlit0_not_nan, Or.inl (by decide)⟩, Or.inl rfl⟩
  · rw [if_neg h]
    refine ⟨⟨hy, (key_nonneg_iff y).1 ?_⟩, Or.inr rfl⟩
    by_contra hc
    apply h
    rw [lt_iff, dlit0_key]
    exact ⟨hy, dlit0_not_nan, by omega⟩

/-- Conversion keeps a zero or positive datum zero or positive. -/
theorem convert_nonneg {f : Fmt} (g : Fmt) (x : FP f) (hf : 0 < f.infMag) (h : x.NonNeg) :
    (FP.convert g x).NonNeg := by
  obtain ⟨hm, hs⟩ := h
  unfold FP.convert
  rcases toExact_cases x hm with ⟨c, e⟩ | ⟨c, e⟩ | ⟨c, _, e⟩ <;> rw [e]
  · have hx : x.sign = false := by
      rcases hs with hs | hs
      · exact hs
      · omega
    rw [hx]
    exact ⟨le_rfl, Or.inl rfl⟩
  · exact ⟨Nat.zero_le _, Or.inr rfl⟩
  · have hx : x.sign = false := by
      rcases hs with hs | hs
      · exact hs
      · omega
    rw [hx]
    exact ⟨roundMag_le_inf _ _ _, Or.inl rfl⟩

theorem toExact_of_pos {f : Fmt} (x : FP f) (h : x.sign = false) (h0 : 0 < x.mag.val)
    (hm : x.mag.val < f.infMag) :
    x.toExact = Exact.num false (FP.intVal f x.mag.val) (2 ^ f.scale) := by
  rw [toExact_of_not_nan x hm.le, if_neg (Nat.ne_of_lt hm), if_neg (Nat.ne_of_gt h0), h]

theorem dlit150_sign : (dlit 150).sign = false := by decide!

theorem dlit150_finite : (dlit 150).mag.val < binary64.infMag := by decide!

theorem dlit150_pos : 0 < (dlit 150).mag.val := by decide!

theorem dlit150_exact : (dlit 150).toExact =
    Exact.num false (FP.intVal binary64 (dlit 150).mag.val) (2 ^ binary64.scale) :=
  toExact_of_pos _ dlit150_sign dlit150_pos dlit150_finite

theorem dlit150_round : roundMag binary64 (FP.intVal binary64 (dlit 150).mag.val)
    (2 ^ binary64.scale) = (dlit 150).mag.val := by decide!

theorem dlit150_narrow : roundMag binary32 (FP.intVal binary64 (dlit 150).mag.val)
    (2 ^ binary64.scale) = (flit 150 1).mag.val := by decide!

/-- The difference 150.0 - w, for w zero or positive, is not a NaN and is negative or
at most 150.0. -/
theorem sub150_le (w : F64) (h : w.NonNeg) :
    (FP.sub (dlit 150) w).mag.val ≤ binary64.infMag ∧
      ((FP.sub (dlit 150) w).sign = true ∨
        (FP.sub (dlit 150) w).mag.val ≤ (dlit 150).mag.val) := by
  obtain ⟨hm, hs⟩ := h
  have hi : 0 < binary64.infMag := by decide
  have hA := intVal_pos binary64 _ dlit150_pos
  have hB : 0 < 2 ^ binary64.scale := Nat.two_pow_pos _
  have hr := dlit150_round
  have hM := intVal_pos binary64 w.mag.val
  have cw := toExact_cases w hm
  unfold FP.sub
  rw [dlit150_exact]
  generalize FP.intVal binary64 (dlit 150).mag.val = A at hA hr ⊢
  generalize FP.intVal binary64 w.mag.val = M at hM cw
  generalize 2 ^ binary64.scale = B at hB hr cw ⊢
  rcases cw with ⟨c, e⟩ | ⟨c, e⟩ | ⟨c, c', e⟩ <;> rw [e]
  · have hw : w.sign = false := by
      rcases hs with hs | hs
      · exact hs
      · omega
    rw [hw]
    exact ⟨le_rfl, Or.inl rfl⟩
  · refine ⟨roundMag_le_inf _ _ _, Or.inr ?_⟩
    show roundMag binary64 A B ≤ _
    rw [hr]
  · have hw : w.sign = false := by
      rcases hs with hs | hs
      · exact hs
      · omega
    have hM := hM c
    rw [hw]
    unfold Exact.sub
    simp only [if_true]
    by_cases c3 : A * B = M * B
    · rw [if_pos c3]
      exact ⟨Nat.zero_le _, Or.inr (Nat.zero_le _)⟩
    · rw [if_neg c3]
      by_cases c4 : M * B < A * B
      · rw [if_pos c4]
        refine ⟨roundMag_le_inf _ _ _, Or.inr ?_⟩
        show roundMag binary64 (A * B - M * B) (B * B) ≤ _
        rw [← hr]
        apply roundMag_mono _ _ _ _ _ (by omega) (Nat.mul_pos hB hB) hA hB
        calc (A * B - M * B) * B ≤ (A * B) * B := Nat.mul_le_mul_right _ (Nat.sub_le _ _)
          _ = A * (B * B) := by ring
      · rw [if_neg c4]
        exact ⟨roundMag_le_inf _ _ _, Or.inl rfl⟩

/-- Narrowing a double between zero and 150.0 gives a float between zero and 150.0. -/
theorem narrow_upTo150 (r : F64) (h : r.UpTo (dlit 150).mag.val) :
    (narrow r).UpTo (flit 150 1).mag.val := by
  obtain ⟨hm, hs⟩ := h
  have hf : r.mag.val < binary64.infMag := lt_of_le_of_lt hm dlit150_finite
  unfold narrow FP.convert
  rcases toExact_cases r hf.le with ⟨c, e⟩ | ⟨c, e⟩ | ⟨c, _, e⟩ <;> rw [e]
  · omega
  · exact ⟨Nat.zero_le _, Or.inr rfl⟩
  · refine ⟨?_, Or.inl (by rcases hs with hs | hs; exact hs; omega)⟩
    show roundMag binary32 _ _ ≤ _
    rw [← dlit150_narrow]
    apply roundMag_mono _ _ _ _ _ (intVal_pos _ _ c) (Nat.two_pow_pos _)
      (intVal_pos _ _ dlit150_pos) (Nat.two_pow_pos _)
    exact Nat.mul_le_mul_right _ (intVal_mono _ _ _ hm)

/-- The value stored as the power-capability feature lies between zero and 150.0, for
any zero or positive derating t and any `max` that, on operands that are not NaNs,
returns +0.0 or its second operand, zero or positive. -/
theorem sop_range (max : F64 → F64 → F64)
    (hmax : ∀ x : F64, x.mag.val ≤ binary64.infMag →
      (max (dlit 0) x).NonNeg ∧ (max (dlit 0) x = dlit 0 ∨ max (dlit 0) x = x))
    (t : F64) (ht : t.NonNeg) :
    (narrow (max (dlit 0) (FP.sub (dlit 150) (widen (narrow t))))).UpTo
      (flit 150 1).mag.val := by
  have hw : (widen (narrow t)).NonNeg :=
    convert_nonneg _ _ (by decide) (convert_nonneg _ _ (by decide) ht)
  obtain ⟨x1, x2⟩ := sub150_le _ hw
  generalize FP.sub (dlit 150) (widen (narrow t)) = x at x1 x2
  obtain ⟨⟨r1, r2⟩, r3 | r3⟩ := hmax x x1
  · apply narrow_upTo150
    rw [r3]
    exact ⟨Nat.zero_le _, Or.inl (by decide)⟩
  · apply narrow_upTo150
    rw [r3] at r2 ⊢
    refine ⟨?_, r2⟩
    rcases r2 with r2 | r2
    · rcases x2 with x2 | x2
      · rw [r2] at x2; cases x2
      · exact x2
    · omega

/-- A float between zero and 150.0 compares `0 <= v` and `v <= 150`. -/
theorem le_of_upTo150 (v : F32) (h : v.UpTo (flit 150 1).mag.val) :
    FP.le (FP.posZero binary32) v = true ∧ FP.le v (flit 150 1) = true := by
  obtain ⟨hm, hs⟩ := h
  have hf : (flit 150 1).mag.val < binary32.infMag := by decide!
  have k2 : (flit 150 1).key = ((flit 150 1).mag.val : Int) := by decide!
  have k1 : (FP.posZero binary32).key = 0 := by decide
  have k3 := (key_nonneg_iff v).2 hs
  have k4 : v.key ≤ (v.mag.val : Int) := by
    unfold FP.key; split <;> omega
  rw [le_iff, le_iff, k1, k2]
  refine ⟨⟨by decide, by omega, k3⟩, by omega, hf.le, ?_⟩
  have : (v.mag.val : Int) ≤ ((flit 150 1).mag.val : Int) := by exact_mod_cast hm
  omega

/-- The conversion of a datum that is not a NaN is not a NaN. -/
theorem convert_not_nan {f : Fmt} (g : Fmt) (x : FP f) (hm : x.mag.val ≤ f.infMag) :
    (FP.convert g x).mag.val ≤ g.infMag := by
  unfold FP.convert
  rcases toExact_cases x hm with ⟨_, e⟩ | ⟨_, e⟩ | ⟨_, _, e⟩ <;> rw [e]
  · exact le_rfl
  · exact Nat.zero_le _
  · exact roundMag_le_inf _ _ _

/-- Subtracting a finite nonzero constant from a datum that is not a NaN gives no NaN. -/
theorem sub_const_not_nan {f : Fmt} (x c : FP f) (s : Bool) (n d : Nat)
    (hc : c.toExact = Exact.num s n d) (hm : x.mag.val ≤ f.infMag) :
    (FP.sub x c).mag.val ≤ f.infMag := by
  unfold FP.sub
  rw [hc]
  rcases toExact_cases x hm with ⟨_, e⟩ | ⟨_, e⟩ | ⟨_, _, e⟩ <;> rw [e] <;>
    simp only [Exact.sub]
  · exact le_rfl
  · exact roundMag_le_inf _ _ _
  · split_ifs
    · exact Nat.zero_le _
    · exact roundMag_le_inf _ _ _
    · exact roundMag_le_inf _ _ _
    · exact roundMag_le_inf _ _ _

/-- Multiplying a datum that is not a NaN by a finite nonzero constant gives no NaN. -/
theorem mul_const_not_nan {f : Fmt} (x c : FP f) (s : Bool) (n d : Nat)
    (hc : c.toExact = Exact.num s n d) (hm : x.mag.val ≤ f.infMag) :
    (FP.mul x c).mag.val ≤ f.infMag := by
  unfold FP.mul
  rw [hc]
  rcases toExact_cases x hm with ⟨_, e⟩ | ⟨_, e⟩ | ⟨_, _, e⟩ <;> rw [e] <;>
    simp only [Exact.mul]
  · exact le_rfl
  · exact Nat.zero_le _
  · exact roundMag_le_inf _ _ _

/-- The derating term `(pack_temp - 45.0) * 2.0` is a NaN only for a NaN pack_temp. -/
theorem derating_not_nan (pack_temp : F32) (h : pack_temp.isNaN = false) :
    (FP.mul (FP.sub (widen pack_temp) (dlit 45)) (dlit 2)).mag.val ≤ binary64.infMag := by
  have h0 : pack_temp.mag.val ≤ binary32.infMag := by
    unfold FP.isNaN at h
    simpa using h
  have e45 : (dlit 45).toExact =
      Exact.num false (FP.intVal binary64 (dlit 45).mag.val) (2 ^ binary64.scale) :=
    toExact_of_pos _ (by decide!) (by decide!) (by decide!)
  have e2 : (dlit 2).toExact =
      Exact.num false (FP.intVal binary64 (dlit 2).mag.val) (2 ^ binary64.scale) :=
    toExact_of_pos _ (by decide!) (by decide!) (by decide!)
  exact mul_const_not_nan _ _ _ _ _ e2
    (sub_const_not_nan _ _ _ _ _ e45 (convert_not_nan binary64 pack_temp h0))

/-- With the function-like `max` of the AVR core the power-capability feature lies
between zero and 150.0 for every pack_temp that is not a NaN. -/
theorem sop_in_range_avr_max (data : SafetySensors) (features : Buf)
    (h : data.pack_temp.isNaN = false) :
    FP.le (FP.posZero binary32) (extract_safety_features avr_max data features 12) = true ∧
    FP.le (extract_safety_features avr_max data features 12) (flit 150 1) = true := by
  have e : extract_safety_features avr_max data features 12 =
      narrow (avr_max (dlit 0) (FP.sub (dlit 150) (widen (narrow (avr_max (dlit 0)
        (FP.mul (FP.sub (widen data.pack_temp) (dlit 45)) (dlit 2))))))) := by
    simp [extract_safety_features, Buf.set]
  rw [e]
  exact le_of_upTo150 _ (sop_range avr_max avr_max_zero _
    (avr_max_zero _ (derating_not_nan _ h)).1)

/-- With the function-like `max` of the AVR core a NaN pack_temp makes the
power-capability feature a NaN. -/
theorem sop_nan_avr_max :
    (extract_safety_features avr_max nan_temp zero_features 12).isNaN = true := by
  decide!

theorem intVal_strictMono_aux (P E₁ M₁ E₂ M₂ : Nat) (r₁ : M₁ < P)
    (r₂ : M₂ < P) (h : P * E₁ + M₁ < P * E₂ + M₂) :
    (if E₁ = 0 then M₁ else (P + M₁) * 2 ^ (E₁ - 1)) <
    (if E₂ = 0 then M₂ else (P + M₂) * 2 ^ (E₂ - 1)) := by
  have hE : E₁ ≤ E₂ := by
    by_contra hc
    have : P * (E₂ + 1) ≤ P * E₁ := Nat.mul_le_mul_left _ (by omega)
    rw [Nat.mul_add] at this
    omega
  by_cases h1 : E₁ = 0
  · simp only [h1, if_true]
    by_cases h2 : E₂ = 0
    · simp only [h2, if_true]
      subst h1; subst h2
      omega
    · simp only [h2, if_false]
      have : 1 ≤ 2 ^ (E₂ - 1) := Nat.two_pow_pos _
      calc M₁ < (P + M₂) * 1 := by omega
        _ ≤ (P + M₂) * 2 ^ (E₂ - 1) := Nat.mul_le_mul_left _ this
  · have h2 : ¬ E₂ = 0 := by omega
    simp only [h1, h2, if_false]
    rcases lt_or_eq_of_le hE with c | c
    · have e1 : E₁ - 1 + 1 ≤ E₂ - 1 := by omega
      have p1 : 2 ^ (E₁ - 1 + 1) ≤ 2 ^ (E₂ - 1) := Nat.pow_le_pow_right (by decide) e1
      calc (P + M₁) * 2 ^ (E₁ - 1) < (P * 2) * 2 ^ (E₁ - 1) :=
            Nat.mul_lt_mul_of_pos_right (by omega) (Nat.two_pow_pos _)
        _ = P * 2 ^ (E₁ - 1 + 1) := by rw [pow_succ]; ring
        _ ≤ P * 2 ^ (E₂ - 1) := Nat.mul_le_mul_left _ p1
        _ ≤ (P + M₂) * 2 ^ (E₂ - 1) := Nat.mul_le_mul_right _ (by omega)
    · subst c
      exact Nat.mul_lt_mul_of_pos_right (by omega) (Nat.two_pow_pos _)

/-- Distinct finite data of one sign have distinct values, in the same order. -/
theorem intVal_strictMono (f : Fmt) (k₁ k₂ : Nat) (h : k₁ < k₂) :
    FP.intVal f k₁ < FP.intVal f k₂ := by
  have hP : 0 < 2 ^ f.mbits := Nat.two_pow_pos _
  have m1 := Nat.div_add_mod k₁ (2 ^ f.mbits)
  have m2 := Nat.div_add_mod k₂ (2 ^ f.mbits)
  have r1 := Nat.mod_lt k₁ hP
  have r2 := Nat.mod_lt k₂ hP
  unfold FP.intVal
  apply intVal_strictMono_aux _ _ _ _ _ r1 r2
  omega

/-- A float at least as large as the smallest subnormal does not round to zero. -/
theorem one_le_roundMag32 (n d : Nat) (hd : 0 < d) (h : d ≤ n * 2 ^ binary32.scale) :
    1 ≤ roundMag binary32 n d := by
  have e : roundMag binary32 1 (2 ^ binary32.scale) = 1 := by decide!
  have hn : 0 < n := by
    rcases Nat.eq_zero_or_pos n with h0 | h0
    · subst h0; omega
    · exact h0
  rw [← e]
  apply roundMag_mono _ _ _ _ _ (by decide) (Nat.two_pow_pos _) hn hd
  omega

/-- The float difference of a smaller and a larger operand is negative and not zero. -/
theorem sub_neg_of_lt (a b : F32) (h : FP.lt a b = true) :
    (FP.sub a b).sign = true ∧ 1 ≤ (FP.sub a b).mag.val ∧
      (FP.sub a b).mag.val ≤ binary32.infMag := by
  obtain ⟨ha, hb, hk⟩ := (lt_iff a b).1 h
  have hinf : 1 ≤ binary32.infMag := by decide
  have hS : 0 < 2 ^ binary32.scale := Nat.two_pow_pos _
  have key1 : ∀ n d, 0 < d → d ≤ n * 2 ^ binary32.scale →
      (FP.ofExact binary32 (Exact.num true n d)).sign = true ∧
      1 ≤ (FP.ofExact binary32 (Exact.num true n d)).mag.val ∧
      (FP.ofExact binary32 (Exact.num true n d)).mag.val ≤ binary32.infMag :=
    fun n d h1 h2 => ⟨rfl, one_le_roundMag32 n d h1 h2, roundMag_le_inf _ _ _⟩
  have key2 : (FP.ofExact binary32 (Exact.inf true)).sign = true ∧
      1 ≤ (FP.ofExact binary32 (Exact.inf true)).mag.val ∧
      (FP.ofExact binary32 (Exact.inf true)).mag.val ≤ binary32.infMag :=
    ⟨rfl, hinf, le_rfl⟩
  have sm := intVal_strictMono binary32 a.mag.val b.mag.val
  have sm' := intVal_strictMono binary32 b.mag.val a.mag.val
  have pa := intVal_pos binary32 a.mag.val
  have pb := intVal_pos binary32 b.mag.val
  have ca := toExact_cases a ha
  have cb := toExact_cases b hb
  unfold FP.sub
  unfold FP.key at hk
  generalize a.toExact = ea at ca ⊢
  generalize b.toExact = eb at cb ⊢
  generalize FP.intVal binary32 a.mag.val = A at sm sm' ca pa
  generalize FP.intVal binary32 b.mag.val = B at sm sm' cb pb
  generalize a.mag.val = ka at sm sm' ca cb hk pa
  generalize b.mag.val = kb at sm sm' ca cb hk pb
  generalize a.sign = sa at ca hk
  generalize b.sign = sb at cb hk
  generalize 2 ^ binary32.scale = S at hS key1 ca cb
  generalize binary32.infMag = I at hinf key1 key2 ca cb ⊢
  generalize FP.ofExact binary32 = R at key1 key2 ⊢
  have mS : ∀ X Y : Nat, X < Y → X * S + S ≤ Y * S := by
    intro X Y hXY
    have := Nat.mul_le_mul_right S (Nat.succ_le_of_lt hXY)
    rw [Nat.succ_mul] at this
    exact this
  rcases ca with ⟨a1, ea⟩ | ⟨a1, ea⟩ | ⟨a1, a2, ea⟩ <;>
    rcases cb with ⟨b1, eb⟩ | ⟨b1, eb⟩ | ⟨b1, b2, eb⟩ <;>
    subst ea <;> subst eb <;>
    cases sa <;> cases sb <;>
    simp only [Exact.sub, Bool.not_true, Bool.not_false, if_true, if_false,
      Bool.false_eq_true, Bool.true_eq_false] at hk ⊢ <;>
    first
    | omega
    | exact key2
    | exact key1 B S hS (Nat.le_mul_of_pos_left S (pb b1))
    | exact key1 A S hS (Nat.le_mul_of_pos_left S (pa a1))
    | skip
  · have h1 := mS A B (sm (by omega))
    rw [if_neg (by omega), if_neg (by omega)]
    exact key1 _ _ (Nat.mul_pos hS hS) (Nat.mul_le_mul_right S (by omega))
  · have h1 := Nat.le_mul_of_pos_left S (pa a1)
    exact key1 _ _ (Nat.mul_pos hS hS) (Nat.mul_le_mul_right S (by omega))
  · have h1 := mS B A (sm' (by omega))
    rw [if_neg (by omega), if_pos (by omega)]
    exact key1 _ _ (Nat.mul_pos hS hS) (Nat.mul_le_mul_right S (by omega))


/-- Conversion of a negative datum of magnitude at least k, tracked through rounding. -/
theorem convert_neg {f : Fmt} (g : Fmt) (x : FP f) (k K : Nat) (hs : x.sign = true)
    (hk : k ≤ x.mag.val) (hpos : 0 < k) (hm : x.mag.val ≤ f.infMag)
    (hK : K ≤ roundMag g (FP.intVal f k) (2 ^ f.scale)) :
    (FP.convert g x).sign = true ∧ K ≤ (FP.convert g x).mag.val ∧
      (FP.convert g x).mag.val ≤ g.infMag := by
  have hKi : K ≤ g.infMag := le_trans hK (roundMag_le_inf _ _ _)
  unfold FP.convert
  rcases toExact_cases x hm with ⟨_, e⟩ | ⟨c, _⟩ | ⟨c1, _, e⟩
  · rw [e, hs]; exact ⟨rfl, hKi, le_rfl⟩
  · omega
  · rw [e, hs]
    refine ⟨rfl, le_trans hK ?_, roundMag_le_inf _ _ _⟩
    show roundMag g _ _ ≤ roundMag g _ _
    apply roundMag_mono _ _ _ _ _ (intVal_pos _ _ hpos) (Nat.two_pow_pos _)
      (intVal_pos _ _ c1) (Nat.two_pow_pos _)
    exact Nat.mul_le_mul_right _ (intVal_mono _ _ _ hk)

/-- The product of a negative datum of magnitude at least k and a positive constant. -/
theorem mul_neg_const {f : Fmt} (x c : FP f) (C k K : Nat)
    (hc : c.toExact = Exact.num false C (2 ^ f.scale)) (hC : 0 < C) (hs : x.sign = true)
    (hk : k ≤ x.mag.val) (hpos : 0 < k) (hm : x.mag.val ≤ f.infMag)
    (hK : K ≤ roundMag f (FP.intVal f k * C) (2 ^ f.scale * 2 ^ f.scale)) :
    (FP.mul x c).sign = true ∧ K ≤ (FP.mul x c).mag.val ∧
      (FP.mul x c).mag.val ≤ f.infMag := by
  have hKi : K ≤ f.infMag := le_trans hK (roundMag_le_inf _ _ _)
  have hS : 0 < 2 ^ f.scale := Nat.two_pow_pos _
  unfold FP.mul
  rcases toExact_cases x hm with ⟨_, e⟩ | ⟨c0, _⟩ | ⟨c1, _, e⟩
  · rw [e, hc, hs]; exact ⟨rfl, hKi, le_rfl⟩
  · omega
  · rw [e, hc, hs]
    refine ⟨rfl, le_trans hK ?_, roundMag_le_inf _ _ _⟩
    show roundMag f _ _ ≤ roundMag f _ _
    apply roundMag_mono _ _ _ _ _ (Nat.mul_pos (intVal_pos _ _ hpos) hC) (Nat.mul_pos hS hS)
      (Nat.mul_pos (intVal_pos _ _ c1) hC) (Nat.mul_pos hS hS)
    exact Nat.mul_le_mul_right _ (Nat.mul_le_mul_right _ (intVal_mono _ _ _ hk))

theorem dlit5_exact : (dlit 5).toExact =
    Exact.num false (FP.intVal binary64 (dlit 5).mag.val) (2 ^ binary64.scale) :=
  toExact_of_pos _ (by decide!) (by decide!) (by decide!)

/-- A strictly negative float difference, times 5.0 and narrowed, is strictly negative. -/
theorem grad_neg (x : F32) (hs : x.sign = true) (h1 : 1 ≤ x.mag.val)
    (hm : x.mag.val ≤ binary32.infMag) :
    FP.lt (narrow (FP.mul (widen x) (dlit 5))) (FP.posZero binary32) = true := by
  have w0 : 0 < roundMag binary64 (FP.intVal binary32 1) (2 ^ binary32.scale) := by decide!
  have p0 : 0 < roundMag binary64
      (FP.intVal binary64 (roundMag binary64 (FP.intVal binary32 1) (2 ^ binary32.scale)) *
        FP.intVal binary64 (dlit 5).mag.val) (2 ^ binary64.scale * 2 ^ binary64.scale) := by
    decide!
  have n0 : 1 ≤ roundMag binary32 (FP.intVal binary64 (roundMag binary64
      (FP.intVal binary64 (roundMag binary64 (FP.intVal binary32 1) (2 ^ binary32.scale)) *
        FP.intVal binary64 (dlit 5).mag.val) (2 ^ binary64.scale * 2 ^ binary64.scale)))
      (2 ^ binary64.scale) := by decide!
  obtain ⟨ws, wk, wm⟩ := convert_neg binary64 x 1 _ hs h1 (by decide) hm le_rfl
  obtain ⟨ps, pk, pm⟩ := mul_neg_const (FP.convert binary64 x) (dlit 5) _ _ _ dlit5_exact
    (intVal_pos _ _ (by decide!)) ws wk w0 wm le_rfl
  obtain ⟨ns, nk, nm⟩ := convert_neg binary32 _ _ 1 ps pk p0 pm n0
  rw [lt_iff]
  refine ⟨nm, by decide, ?_⟩
  unfold FP.key
  rw [show (narrow (FP.mul (widen x) (dlit 5))).sign = true from ns]
  have k0 : (FP.posZero binary32).sign = false := rfl
  have k1 : (FP.posZero binary32).mag.val = 0 := rfl
  rw [k0, k1]
  simp only [if_true, Bool.false_eq_true, if_false]
  have : 1 ≤ (narrow (FP.mul (widen x) (dlit 5))).mag.val := nk
  omega

/-! ## Monotonicity of the arithmetic -/

theorem key_mk_false {f : Fmt} (m : Fin (2 ^ (f.ebits + f.mbits))) :
    (FP.mk false m : FP f).key = (m.val : Int) := rfl

theorem key_mk_true {f : Fmt} (m : Fin (2 ^ (f.ebits + f.mbits))) :
    (FP.mk true m : FP f).key = -(m.val : Int) := rfl

theorem val_num_false (n d : Nat) : (Exact.num false n d).val = (n : ℚ) / d := rfl

theorem val_num_true (n d : Nat) : (Exact.num true n d).val = -((n : ℚ) / d) := rfl

theorem val_zero (s : Bool) : (Exact.zero s).val = 0 := rfl

theorem rat_le_cross (a b c d : Nat) (hb : 0 < b) (hd : 0 < d)
    (h : (a : ℚ) / b ≤ (c : ℚ) / d) : a * d ≤ c * b := by
  have hb' : (0 : ℚ) < b := by exact_mod_cast hb
  have hd' : (0 : ℚ) < d := by exact_mod_cast hd
  rw [div_le_div_iff₀ hb' hd'] at h
  exact_mod_cast h

theorem rat_div_pos (a b : Nat) (ha : 0 < a) (hb : 0 < b) : (0 : ℚ) < (a : ℚ) / b := by
  have ha' : (0 : ℚ) < a := by exact_mod_cast ha
  have hb' : (0 : ℚ) < b := by exact_mod_cast hb
  positivity

/-- Rounding keeps the order of exact results. -/
theorem ofExact_mono (f : Fmt) (a b : Exact) (ha : a ≠ Exact.nan) (hb : b ≠ Exact.nan)
    (wa : a.WF) (wb : b.WF) (h : a.leq b) : (FP.ofExact f a).Leq (FP.ofExact f b) := by
  have hI : ∀ n d, ((roundMag f n d : Nat) : Int) ≤ (f.infMag : Int) := fun n d => by
    exact_mod_cast roundMag_le_inf f n d
  have h0 : ∀ n d, (0 : Int) ≤ ((roundMag f n d : Nat) : Int) := fun n d => by positivity
  have hI0 : (0 : Int) ≤ (f.infMag : Int) := by positivity
  have hF : ((f.infFin.val : Nat) : Int) = (f.infMag : Int) := rfl
  unfold Exact.leq at h
  cases a with
  | nan => exact absurd rfl ha
  | inf s =>
    cases b with
    | nan => exact absurd rfl hb
    | inf t =>
      cases s <;> cases t <;> simp [Exact.isFin] at h <;>
        refine ⟨le_rfl, le_rfl, ?_⟩ <;>
        simp only [FP.ofExact, key_mk_false, key_mk_true] <;> omega
    | zero t =>
      cases s <;> simp [Exact.isFin] at h
      refine ⟨le_rfl, Nat.zero_le _, ?_⟩
      cases t <;> simp only [FP.ofExact, key_mk_false, key_mk_true] <;> omega
    | num t n d =>
      cases s <;> simp [Exact.isFin] at h
      refine ⟨le_rfl, roundMag_le_inf _ _ _, ?_⟩
      have := hI n d
      have := h0 n d
      cases t <;> simp only [FP.ofExact, key_mk_false, key_mk_true] <;> omega
  | zero s =>
    cases b with
    | nan => exact absurd rfl hb
    | inf t =>
      cases t <;> simp [Exact.isFin] at h
      refine ⟨Nat.zero_le _, le_rfl, ?_⟩
      cases s <;> simp only [FP.ofExact, key_mk_false, key_mk_true] <;> omega
    | zero t =>
      refine ⟨Nat.zero_le _, Nat.zero_le _, ?_⟩
      cases s <;> cases t <;> simp only [FP.ofExact, key_mk_false, key_mk_true] <;> omega
    | num t n d =>
      refine ⟨Nat.zero_le _, roundMag_le_inf _ _ _, ?_⟩
      have := h0 n d
      cases t
      · cases s <;> simp only [FP.ofExact, key_mk_false, key_mk_true] <;> omega
      · exfalso
        have p := rat_div_pos n d wb.1 wb.2
        simp [Exact.isFin, val_zero, val_num_true] at h
        linarith
  | num s n d =>
    cases b with
    | nan => exact absurd rfl hb
    | inf t =>
      cases t <;> simp [Exact.isFin] at h
      refine ⟨roundMag_le_inf _ _ _, le_rfl, ?_⟩
      have := hI n d
      have := h0 n d
      cases s <;> simp only [FP.ofExact, key_mk_false, key_mk_true] <;> omega
    | zero t =>
      refine ⟨roundMag_le_inf _ _ _, Nat.zero_le _, ?_⟩
      have := h0 n d
      cases s
      · exfalso
        have p := rat_div_pos n d wa.1 wa.2
        simp [Exact.isFin, val_zero, val_num_false] at h
        linarith
      · cases t <;> simp only [FP.ofExact, key_mk_false, key_mk_true] <;> omega
    | num t m e =>
      refine ⟨roundMag_le_inf _ _ _, roundMag_le_inf _ _ _, ?_⟩
      have pa := rat_div_pos n d wa.1 wa.2
      have pb := rat_div_pos m e wb.1 wb.2
      have := h0 n d
      have := h0 m e
      cases s <;> cases t <;>
        simp [Exact.isFin, val_num_false, val_num_true] at h <;>
        simp only [FP.ofExact, key_mk_false, key_mk_true]
      · have := roundMag_mono f n d m e wa.1 wa.2 wb.1 wb.2 (rat_le_cross _ _ _ _ wa.2 wb.2 h)
        omega
      · linarith
      · omega
      · have := roundMag_mono f m e n d wb.1 wb.2 wa.1 wa.2 (rat_le_cross _ _ _ _ wb.2 wa.2 h)
        omega

theorem toExact_wf {f : Fmt} (x : FP f) (hm : x.mag.val ≤ f.infMag) :
    x.toExact ≠ Exact.nan ∧ x.toExact.WF := by
  rcases toExact_cases x hm with ⟨_, e⟩ | ⟨_, e⟩ | ⟨c, _, e⟩ <;> rw [e]
  · exact ⟨by simp, trivial⟩
  · exact ⟨by simp, trivial⟩
  · exact ⟨by simp, intVal_pos _ _ c, Nat.two_pow_pos _⟩

/-- The order of two data is the order of the extended rationals they denote. -/
theorem toExact_leq {f : Fmt} (hf : 0 < f.infMag) (x y : FP f) (h : x.Leq y) :
    x.toExact.leq y.toExact := by
  obtain ⟨hx, hy, hk⟩ := h
  have sm := intVal_mono f x.mag.val y.mag.val
  have sm' := intVal_mono f y.mag.val x.mag.val
  have cx := toExact_cases x hx
  have cy := toExact_cases y hy
  have hS : (0 : ℚ) < ((2 ^ f.scale : ℕ) : ℚ) := by positivity
  unfold FP.key at hk
  generalize x.toExact = ex at cx ⊢
  generalize y.toExact = ey at cy ⊢
  generalize FP.intVal f x.mag.val = A at sm sm' cx
  generalize FP.intVal f y.mag.val = B at sm sm' cy
  generalize x.mag.val = kx at sm sm' cx cy hk
  generalize y.mag.val = ky at sm sm' cx cy hk
  generalize x.sign = sx at cx hk
  generalize y.sign = sy at cy hk
  generalize 2 ^ f.scale = S at hS cx cy
  generalize f.infMag = I at hf cx cy
  have d1 : ∀ X Y : Nat, X ≤ Y → (X : ℚ) / S ≤ (Y : ℚ) / S := fun X Y hXY =>
    div_le_div_of_nonneg_right (by exact_mod_cast hXY) hS.le
  have d0 : ∀ X : Nat, (0 : ℚ) ≤ (X : ℚ) / S := fun X => by positivity
  rcases cx with ⟨a1, ea⟩ | ⟨a1, ea⟩ | ⟨a1, a2, ea⟩ <;>
    rcases cy with ⟨b1, eb⟩ | ⟨b1, eb⟩ | ⟨b1, b2, eb⟩ <;>
    subst ea <;> subst eb <;>
    cases sx <;> cases sy <;>
    simp only [Exact.leq, Exact.isFin, val_zero, val_num_false, val_num_true, if_true,
      if_false, Bool.false_eq_true, Exact.inf.injEq, true_or, or_true, and_self,
      and_true, true_and, le_refl, false_or, or_false, reduceCtorEq,
      Bool.true_eq_false] at hk ⊢ <;>
    first
    | omega
    | exact d0 _
    | exact d1 _ _ (sm (by omega))
    | exact le_trans (neg_le_neg (d1 _ _ (sm' (by omega)))) le_rfl
    | exact neg_nonpos.2 (d0 _)
    | exact le_trans (neg_nonpos.2 (d0 A)) (d0 B)

/-- The exact difference of finite operands is finite and is their difference. -/
theorem sub_fin (a c : Exact) (fa : a.isFin = true) (fc : c.isFin = true) (wa : a.WF)
    (wc : c.WF) :
    (a.sub c).isFin = true ∧ (a.sub c).WF ∧ (a.sub c).val = a.val - c.val := by
  cases a with
  | nan => simp [Exact.isFin] at fa
  | inf s => simp [Exact.isFin] at fa
  | zero s =>
    cases c with
    | nan => simp [Exact.isFin] at fc
    | inf t => simp [Exact.isFin] at fc
    | zero t => exact ⟨rfl, trivial, by simp [Exact.sub, val_zero]⟩
    | num t m e =>
      refine ⟨rfl, wc, ?_⟩
      cases t <;> simp [Exact.sub, val_zero, val_num_false, val_num_true]
  | num s n d =>
    cases c with
    | nan => simp [Exact.isFin] at fc
    | inf t => simp [Exact.isFin] at fc
    | zero t => exact ⟨rfl, wa, by simp [Exact.sub, val_zero]⟩
    | num t m e =>
      obtain ⟨hn, hd⟩ := wa
      obtain ⟨hm, he⟩ := wc
      have hd' : (0 : ℚ) < d := by exact_mod_cast hd
      have he' : (0 : ℚ) < e := by exact_mod_cast he
      have hde : 0 < d * e := Nat.mul_pos hd he
      by_cases hst : s = t
      · subst hst
        by_cases c1 : n * e = m * d
        · have c1q : (n : ℚ) * e = m * d := by exact_mod_cast c1
          have hv : (n : ℚ) / d = (m : ℚ) / e := by
            rw [div_eq_div_iff hd'.ne' he'.ne']; exact c1q
          refine ⟨by simp [Exact.sub, c1, Exact.isFin], by simp [Exact.sub, c1, Exact.WF], ?_⟩
          cases s <;> simp [Exact.sub, c1, val_zero, val_num_false, val_num_true, hv]
        · by_cases c2 : m * d < n * e
          · have hv : (((n * e - m * d : ℕ) : ℚ)) / ((d * e : ℕ) : ℚ) =
                (n : ℚ) / d - (m : ℚ) / e := by
              rw [Nat.cast_sub c2.le]
              push_cast
              field_simp
              ring
            refine ⟨by simp [Exact.sub, c1, c2, Exact.isFin],
              by simp only [Exact.sub, c1, c2, if_true, if_false, Exact.WF]; exact ⟨by omega, hde⟩,
              ?_⟩
            cases s
            · simp only [Exact.sub, c1, c2, if_true, if_false, val_num_false, hv]
            · simp only [Exact.sub, c1, c2, if_true, if_false, val_num_true, hv]
              ring
          · have c3 : n * e ≤ m * d := Nat.le_of_not_lt c2
            have hv : (((m * d - n * e : ℕ) : ℚ)) / ((d * e : ℕ) : ℚ) =
                (m : ℚ) / e - (n : ℚ) / d := by
              rw [Nat.cast_sub c3]
              push_cast
              field_simp
              ring
            refine ⟨by simp [Exact.sub, c1, c2, Exact.isFin],
              by simp only [Exact.sub, c1, c2, if_true, if_false, Exact.WF]; exact ⟨by omega, hde⟩,
              ?_⟩
            cases s <;>
              simp only [Exact.sub, c1, c2, if_true, if_false, val_num_false, val_num_true, hv,
                Bool.not_true, Bool.not_false] <;>
              ring
      · have hv : (((n * e + m * d : ℕ) : ℚ)) / ((d * e : ℕ) : ℚ) =
            (n : ℚ) / d + (m : ℚ) / e := by
          push_cast
          field_simp
        refine ⟨by simp [Exact.sub, hst, Exact.isFin],
          by simp only [Exact.sub, hst, if_false, Exact.WF]; exact ⟨by positivity, hde⟩, ?_⟩
        cases s <;> cases t <;> simp at hst <;>
          simp only [Exact.sub, if_false, val_num_false, val_num_true, hv,
            Bool.false_eq_true, Bool.true_eq_false] <;>
          ring

/-- The exact product of a finite operand and a positive rational. -/
theorem mul_fin (a : Exact) (C D : Nat) (fa : a.isFin = true) (wa : a.WF) (hC : 0 < C)
    (hD : 0 < D) :
    (a.mul (Exact.num false C D)).isFin = true ∧ (a.mul (Exact.num false C D)).WF ∧
      (a.mul (Exact.num false C D)).val = a.val * ((C : ℚ) / D) := by
  cases a with
  | nan => simp [Exact.isFin] at fa
  | inf s => simp [Exact.isFin] at fa
  | zero s => exact ⟨rfl, trivial, by simp [Exact.mul, val_zero]⟩
  | num s n d =>
    refine ⟨rfl, ⟨Nat.mul_pos wa.1 hC, Nat.mul_pos wa.2 hD⟩, ?_⟩
    have hv : (((n * C : ℕ) : ℚ)) / ((d * D : ℕ) : ℚ) = (n : ℚ) / d * ((C : ℚ) / D) := by
      push_cast
      rw [mul_div_mul_comm]
    cases s
    · simp only [Exact.mul, Bool.xor_false, val_num_false, hv]
    · simp only [Exact.mul, Bool.xor_false, val_num_true, hv]
      ring

/-- Subtracting a finite constant keeps the order. -/
theorem sub_leq_left (a b c : Exact) (ha : a ≠ Exact.nan) (hb : b ≠ Exact.nan)
    (wa : a.WF) (wb : b.WF) (fc : c.isFin = true) (wc : c.WF) (h : a.leq b) :
    (a.sub c).leq (b.sub c) ∧ a.sub c ≠ Exact.nan ∧ b.sub c ≠ Exact.nan ∧
      (a.sub c).WF ∧ (b.sub c).WF := by
  have nn : ∀ x : Exact, x ≠ Exact.nan → x.WF → x.sub c ≠ Exact.nan ∧ (x.sub c).WF := by
    intro x hx wx
    cases x with
    | nan => exact absurd rfl hx
    | inf s => cases c <;> simp [Exact.isFin] at fc <;> simp [Exact.sub, Exact.WF]
    | zero s =>
      have := sub_fin (Exact.zero s) c rfl fc trivial wc
      refine ⟨?_, this.2.1⟩
      intro hc; rw [hc] at this; simp [Exact.isFin] at this
    | num s n d =>
      have := sub_fin (Exact.num s n d) c rfl fc wx wc
      refine ⟨?_, this.2.1⟩
      intro hc; rw [hc] at this; simp [Exact.isFin] at this
  refine ⟨?_, (nn a ha wa).1, (nn b hb wb).1, (nn a ha wa).2, (nn b hb wb).2⟩
  rcases h with h | h | ⟨fa, fb, hv⟩
  · subst h
    left
    cases c <;> simp [Exact.isFin] at fc <;> simp [Exact.sub]
  · subst h
    right; left
    cases c <;> simp [Exact.isFin] at fc <;> simp [Exact.sub]
  · right; right
    obtain ⟨i1, _, v1⟩ := sub_fin a c fa fc wa wc
    obtain ⟨i2, _, v2⟩ := sub_fin b c fb fc wb wc
    exact ⟨i1, i2, by rw [v1, v2]; linarith⟩

/-- Subtracting from a finite constant reverses the order. -/
theorem sub_leq_right (a b c : Exact) (ha : a ≠ Exact.nan) (hb : b ≠ Exact.nan)
    (wa : a.WF) (wb : b.WF) (fc : c.isFin = true) (wc : c.WF) (h : a.leq b) :
    (c.sub b).leq (c.sub a) ∧ c.sub a ≠ Exact.nan ∧ c.sub b ≠ Exact.nan ∧
      (c.sub a).WF ∧ (c.sub b).WF := by
  have nn : ∀ x : Exact, x ≠ Exact.nan → x.WF → c.sub x ≠ Exact.nan ∧ (c.sub x).WF := by
    intro x hx wx
    cases x with
    | nan => exact absurd rfl hx
    | inf s => cases c <;> simp [Exact.isFin] at fc <;> simp [Exact.sub, Exact.WF]
    | zero s =>
      have := sub_fin c (Exact.zero s) fc rfl wc trivial
      refine ⟨?_, this.2.1⟩
      intro hc; rw [hc] at this; simp [Exact.isFin] at this
    | num s n d =>
      have := sub_fin c (Exact.num s n d) fc rfl wc wx
      refine ⟨?_, this.2.1⟩
      intro hc; rw [hc] at this; simp [Exact.isFin] at this
  refine ⟨?_, (nn a ha wa).1, (nn b hb wb).1, (nn a ha wa).2, (nn b hb wb).2⟩
  rcases h with h | h | ⟨fa, fb, hv⟩
  · subst h
    right; left
    cases c <;> simp [Exact.isFin] at fc <;> simp [Exact.sub]
  · subst h
    left
    cases c <;> simp [Exact.isFin] at fc <;> simp [Exact.sub]
  · right; right
    obtain ⟨i1, _, v1⟩ := sub_fin c a fc fa wc wa
    obtain ⟨i2, _, v2⟩ := sub_fin c b fc fb wc wb
    exact ⟨i2, i1, by rw [v1, v2]; linarith⟩

/-- Multiplying by a positive finite constant keeps the order. -/
theorem mul_leq (a b : Exact) (C D : Nat) (ha : a ≠ Exact.nan) (hb : b ≠ Exact.nan)
    (wa : a.WF) (wb : b.WF) (hC : 0 < C) (hD : 0 < D) (h : a.leq b) :
    (a.mul (Exact.num false C D)).leq (b.mul (Exact.num false C D)) ∧
      a.mul (Exact.num false C D) ≠ Exact.nan ∧ b.mul (Exact.num false C D) ≠ Exact.nan ∧
      (a.mul (Exact.num false C D)).WF ∧ (b.mul (Exact.num false C D)).WF := by
  have nn : ∀ x : Exact, x ≠ Exact.nan → x.WF →
      x.mul (Exact.num false C D) ≠ Exact.nan ∧ (x.mul (Exact.num false C D)).WF := by
    intro x hx wx
    cases x with
    | nan => exact absurd rfl hx
    | inf s => simp [Exact.mul, Exact.WF]
    | zero s => simp [Exact.mul, Exact.WF]
    | num s n d => exact ⟨by simp [Exact.mul], Nat.mul_pos wx.1 hC, Nat.mul_pos wx.2 hD⟩
  refine ⟨?_, (nn a ha wa).1, (nn b hb wb).1, (nn a ha wa).2, (nn b hb wb).2⟩
  have hq : (0 : ℚ) < (C : ℚ) / D := rat_div_pos C D hC hD
  rcases h with h | h | ⟨fa, fb, hv⟩
  · subst h
    left
    simp [Exact.mul]
  · subst h
    right; left
    simp [Exact.mul]
  · right; right
    obtain ⟨i1, _, v1⟩ := mul_fin a C D fa wa hC hD
    obtain ⟨i2, _, v2⟩ := mul_fin b C D fb wb hC hD
    exact ⟨i1, i2, by rw [v1, v2]; exact mul_le_mul_of_nonneg_right hv hq.le⟩

theorem toExact_fin {f : Fmt} (c : FP f) (hc : c.mag.val < f.infMag) :
    c.toExact.isFin = true := by
  rcases toExact_cases c hc.le with ⟨h, _⟩ | ⟨_, e⟩ | ⟨_, _, e⟩
  · omega
  · rw [e]; rfl
  · rw [e]; rfl

theorem leq_iff {f : Fmt} (x y : FP f) : FP.le x y = true ↔ x.Leq y := le_iff x y

/-- Conversion between formats keeps the order. -/
theorem convert_leq {f : Fmt} (g : Fmt) (hf : 0 < f.infMag) (x y : FP f) (h : x.Leq y) :
    (FP.convert g x).Leq (FP.convert g y) :=
  ofExact_mono g _ _ (toExact_wf x h.1).1 (toExact_wf y h.2.1).1 (toExact_wf x h.1).2
    (toExact_wf y h.2.1).2 (toExact_leq hf x y h)

/-- Subtracting a finite constant keeps the order. -/
theorem sub_const_leq {f : Fmt} (hf : 0 < f.infMag) (x y c : FP f)
    (hc : c.mag.val < f.infMag) (h : x.Leq y) : (FP.sub x c).Leq (FP.sub y c) := by
  obtain ⟨l, n1, n2, w1, w2⟩ := sub_leq_left _ _ c.toExact (toExact_wf x h.1).1
    (toExact_wf y h.2.1).1 (toExact_wf x h.1).2 (toExact_wf y h.2.1).2 (toExact_fin c hc)
    (toExact_wf c hc.le).2 (toExact_leq hf x y h)
  exact ofExact_mono f _ _ n1 n2 w1 w2 l

/-- Subtracting from a finite constant reverses the order. -/
theorem const_sub_leq {f : Fmt} (hf : 0 < f.infMag) (x y c : FP f)
    (hc : c.mag.val < f.infMag) (h : x.Leq y) : (FP.sub c y).Leq (FP.sub c x) := by
  obtain ⟨l, n1, n2, w1, w2⟩ := sub_leq_right _ _ c.toExact (toExact_wf x h.1).1
    (toExact_wf y h.2.1).1 (toExact_wf x h.1).2 (toExact_wf y h.2.1).2 (toExact_fin c hc)
    (toExact_wf c hc.le).2 (toExact_leq hf x y h)
  exact ofExact_mono f _ _ n2 n1 w2 w1 l

/-- Multiplying by a positive finite constant keeps the order. -/
theorem mul_const_leq {f : Fmt} (hf : 0 < f.infMag) (x y c : FP f) (hs : c.sign = false)
    (h0 : 0 < c.mag.val) (hc : c.mag.val < f.infMag) (h : x.Leq y) :
    (FP.mul x c).Leq (FP.mul y c) := by
  unfold FP.mul
  rw [toExact_of_pos c hs h0 hc]
  obtain ⟨l, n1, n2, w1, w2⟩ := mul_leq _ _ (FP.intVal f c.mag.val) (2 ^ f.scale)
    (toExact_wf x h.1).1 (toExact_wf y h.2.1).1 (toExact_wf x h.1).2 (toExact_wf y h.2.1).2
    (intVal_pos _ _ h0) (Nat.two_pow_pos _) (toExact_leq hf x y h)
  exact ofExact_mono f _ _ n1 n2 w1 w2 l

/-- `std::max(0.0, x)` keeps the order. -/
theorem std_max_leq (x y : F64) (h : x.Leq y) :
    (std_max (dlit 0) x).Leq (std_max (dlit 0) y) := by
  obtain ⟨hx, hy, hk⟩ := h
  have k0 := dlit0_key
  have n0 := dlit0_not_nan
  unfold std_max
  by_cases c1 : FP.lt (dlit 0) x = true
  · have a1 := ((lt_iff _ _).1 c1).2.2
    have c2 : FP.lt (dlit 0) y = true := (lt_iff _ _).2 ⟨n0, hy, by omega⟩
    rw [if_pos c1, if_pos c2]
    exact ⟨hx, hy, hk⟩
  · rw [if_neg c1]
    by_cases c2 : FP.lt (dlit 0) y = true
    · have a2 := ((lt_iff _ _).1 c2).2.2
      rw [if_pos c2]
      exact ⟨n0, hy, a2.le⟩
    · rw [if_neg c2]
      exact ⟨n0, n0, le_rfl⟩

/-- The power-capability value does not increase with the pack temperature. -/
theorem sop_antitone (p q : F32) (h : p.Leq q) :
    (narrow (std_max (dlit 0) (FP.sub (dlit 150) (widen (narrow (std_max (dlit 0)
      (FP.mul (FP.sub (widen q) (dlit 45)) (dlit 2)))))))).Leq
    (narrow (std_max (dlit 0) (FP.sub (dlit 150) (widen (narrow (std_max (dlit 0)
      (FP.mul (FP.sub (widen p) (dlit 45)) (dlit 2)))))))) := by
  have i32 : 0 < binary32.infMag := by decide
  have i64 : 0 < binary64.infMag := by decide
  have s1 := convert_leq binary64 i32 p q h
  have s2 := sub_const_leq i64 _ _ (dlit 45) (by decide!) s1
  have s3 := mul_const_leq i64 _ _ (dlit 2) (by decide!) (by decide!) (by decide!) s2
  have s4 := std_max_leq _ _ s3
  have s5 := convert_leq binary32 i64 _ _ s4
  have s6 := convert_leq binary64 i32 _ _ s5
  have s7 := const_sub_leq i64 _ _ (dlit 150) dlit150_finite s6
  have s8 := std_max_leq _ _ s7
  exact convert_leq binary32 i64 _ _ s8

/-- Conversion keeps the sign bit of a datum that is not a NaN. -/
theorem convert_sign {f : Fmt} (g : Fmt) (x : FP f) (hm : x.mag.val ≤ f.infMag) :
    (FP.convert g x).sign = x.sign := by
  unfold FP.convert
  rcases toExact_cases x hm with ⟨_, e⟩ | ⟨_, e⟩ | ⟨_, _, e⟩ <;> rw [e] <;> rfl

/-- Conversion of a zero is a zero. -/
theorem convert_zero {f : Fmt} (g : Fmt) (hf : 0 < f.infMag) (x : FP f)
    (h : x.mag.val = 0) : (FP.convert g x).mag.val = 0 := by
  unfold FP.convert
  rcases toExact_cases x (by omega) with ⟨c, _⟩ | ⟨_, e⟩ | ⟨c, _, _⟩
  · omega
  · rw [e]; rfl
  · omega

/-- `std::max(0.0, y)` has a clear sign bit. -/
theorem std_max_sign (y : F64) : (std_max (dlit 0) y).sign = false := by
  unfold std_max
  by_cases h : FP.lt (dlit 0) y = true
  · rw [if_pos h]
    have hk := ((lt_iff _ _).1 h).2.2
    rw [dlit0_key] at hk
    unfold FP.key at hk
    by_cases hs : y.sign = true
    · rw [if_pos hs] at hk; omega
    · simpa using hs
  · rw [if_neg h]; decide

/-- `std::max(0.0, y)` is +0.0 when y is not above zero. -/
theorem std_max_of_key_le (y : F64) (h : y.key ≤ 0) : std_max (dlit 0) y = dlit 0 := by
  unfold std_max
  rw [if_neg]
  intro c
  have := ((lt_iff _ _).1 c).2.2
  rw [dlit0_key] at this
  omega

/-- `std::max(0.0, y)` is y when y is above zero. -/
theorem std_max_of_key_pos (y : F64) (hy : y.mag.val ≤ binary64.infMag) (h : 0 < y.key) :
    std_max (dlit 0) y = y := by
  unfold std_max
  rw [if_pos]
  rw [lt_iff, dlit0_key]
  exact ⟨dlit0_not_nan, hy, h⟩

theorem key_eq_zero {f : Fmt} (x : FP f) (h : x.key = 0) : x.mag.val = 0 := by
  unfold FP.key at h
  split at h <;> omega

theorem fp_ext {f : Fmt} (x y : FP f) (hs : x.sign = y.sign)
    (hm : x.mag.val = y.mag.val) : x = y := by
  cases x; cases y
  simp only [FP.mk.injEq] at *
  exact ⟨hs, Fin.ext hm⟩

/-- 150.0 minus a zero of either sign is 150.0. -/
theorem sub150_zero (w : F64) (h : w.mag.val = 0) : FP.sub (dlit 150) w = dlit 150 := by
  have e : w.toExact = Exact.zero w.sign := by
    rcases toExact_cases w (by omega) with ⟨c, _⟩ | ⟨_, e⟩ | ⟨c, _, _⟩
    · have : 0 < binary64.infMag := by decide
      omega
    · exact e
    · omega
  unfold FP.sub
  rw [dlit150_exact, e]
  apply fp_ext
  · exact dlit150_sign.symm
  · exact dlit150_round

/-- A negative difference 150.0 - w is at least one unit of the last place below zero. -/
theorem sub150_neg (w : F64) (h : w.NonNeg) (hs : (FP.sub (dlit 150) w).sign = true) :
    1 ≤ (FP.sub (dlit 150) w).mag.val := by
  obtain ⟨hm, hw⟩ := h
  have hi : 0 < binary64.infMag := by decide
  have hA := intVal_pos binary64 _ dlit150_pos
  have hB : 0 < 2 ^ binary64.scale := Nat.two_pow_pos _
  have one : roundMag binary64 1 (2 ^ binary64.scale) = 1 := by decide!
  have hM := intVal_pos binary64 w.mag.val
  have cw := toExact_cases w hm
  unfold FP.sub at hs ⊢
  rw [dlit150_exact] at hs ⊢
  generalize FP.intVal binary64 (dlit 150).mag.val = A at hA hs ⊢
  generalize FP.intVal binary64 w.mag.val = M at hM cw
  generalize 2 ^ binary64.scale = B at hB one cw hs ⊢
  rcases cw with ⟨c, e⟩ | ⟨c, e⟩ | ⟨c, c', e⟩ <;> rw [e] at hs ⊢
  · have hw' : w.sign = false := by
      rcases hw with hw | hw
      · exact hw
      · omega
    rw [hw']
    exact hi
  · simp [Exact.sub, FP.ofExact] at hs
  · have hw' : w.sign = false := by
      rcases hw with hw | hw
      · exact hw
      · omega
    rw [hw'] at hs ⊢
    unfold Exact.sub at hs ⊢
    simp only [if_true] at hs ⊢
    by_cases c3 : A * B = M * B
    · rw [if_pos c3] at hs
      simp [FP.ofExact] at hs
    · rw [if_neg c3] at hs ⊢
      by_cases c4 : M * B < A * B
      · rw [if_pos c4] at hs
        simp [FP.ofExact] at hs
      · rw [if_neg c4]
        show 1 ≤ roundMag binary64 (M * B - A * B) (B * B)
        rw [← one]
        apply roundMag_mono _ _ _ _ _ (by decide) hB (by omega) (Nat.mul_pos hB hB)
        have hlt : A * B < M * B := by omega
        have hAM : A < M := Nat.lt_of_mul_lt_mul_right hlt
        have h1 : (A + 1) * B ≤ M * B := Nat.mul_le_mul_right B hAM
        rw [Nat.add_mul] at h1
        have h2 : B ≤ M * B - A * B := by omega
        calc 1 * (B * B) = B * B := by ring
          _ ≤ (M * B - A * B) * B := Nat.mul_le_mul_right B h2

/-- The derating term `(pack_temp - 45.0) * 2.0` grows with the pack temperature. -/
theorem derating_leq (p q : F32) (h : p.Leq q) :
    (FP.mul (FP.sub (widen p) (dlit 45)) (dlit 2)).Leq
      (FP.mul (FP.sub (widen q) (dlit 45)) (dlit 2)) := by
  have i32 : 0 < binary32.infMag := by decide
  have i64 : 0 < binary64.infMag := by decide
  have s1 := convert_leq binary64 i32 p q h
  have s2 := sub_const_leq i64 _ _ (dlit 45) (by decide!) s1
  exact mul_const_leq i64 _ _ (dlit 2) (by decide!) (by decide!) (by decide!) s2

/-- Up to 45 degrees there is no derating: the power-capability value is 150.0. -/
theorem sop_cold (p : F32) (h : p.Leq (flit 45 1)) :
    narrow (std_max (dlit 0) (FP.sub (dlit 150) (widen (narrow (std_max (dlit 0)
      (FP.mul (FP.sub (widen p) (dlit 45)) (dlit 2))))))) = flit 150 1 := by
  have hy := (derating_leq p _ h).2.2
  have e45 : FP.mul (FP.sub (widen (flit 45 1)) (dlit 45)) (dlit 2) = dlit 0 := by decide!
  rw [e45, dlit0_key] at hy
  rw [std_max_of_key_le _ hy]
  decide!

/-- From 120 degrees on the power-capability value is +0.0. -/
theorem sop_hot (p : F32) (h : (flit 120 1).Leq p) :
    narrow (std_max (dlit 0) (FP.sub (dlit 150) (widen (narrow (std_max (dlit 0)
      (FP.mul (FP.sub (widen p) (dlit 45)) (dlit 2))))))) = flit 0 1 := by
  have ha := sop_antitone _ _ h
  have e120 : narrow (std_max (dlit 0) (FP.sub (dlit 150) (widen (narrow (std_max (dlit 0)
      (FP.mul (FP.sub (widen (flit 120 1)) (dlit 45)) (dlit 2))))))) = flit 0 1 := by decide!
  rw [e120] at ha
  have hr := sop_range std_max (fun x _ => std_max_zero x) _
    (std_max_zero (FP.mul (FP.sub (widen p) (dlit 45)) (dlit 2))).1
  generalize FP.sub (dlit 150) (widen (narrow (std_max (dlit 0)
      (FP.mul (FP.sub (widen p) (dlit 45)) (dlit 2))))) = x at ha hr ⊢
  have k0 : (flit 0 1).key = 0 := by decide
  have hk : (narrow (std_max (dlit 0) x)).key = 0 := by
    have h1 := ha.2.2
    rw [k0] at h1
    have h2 := (key_nonneg_iff _).2 hr.2
    omega
  apply fp_ext
  · have : (narrow (std_max (dlit 0) x)).sign = (std_max (dlit 0) x).sign :=
      convert_sign binary32 _ (std_max_zero x).1.1
    rw [this, std_max_sign]
    rfl
  · rw [key_eq_zero _ hk]
    rfl

/-- Between 45 and 120 degrees both `max` calls return their second operand: the
power-capability value is `150.0 - (pack_temp - 45.0) * 2.0` in float arithmetic. -/
theorem sop_linear (p : F32) (h1 : (flit 45 1).Leq p) (h2 : p.Leq (flit 120 1)) :
    narrow (std_max (dlit 0) (FP.sub (dlit 150) (widen (narrow (std_max (dlit 0)
      (FP.mul (FP.sub (widen p) (dlit 45)) (dlit 2))))))) =
    narrow (FP.sub (dlit 150) (widen (narrow
      (FP.mul (FP.sub (widen p) (dlit 45)) (dlit 2))))) := by
  have i32 : 0 < binary32.infMag := by decide
  have i64 : 0 < binary64.infMag := by decide
  have e45 : FP.mul (FP.sub (widen (flit 45 1)) (dlit 45)) (dlit 2) = dlit 0 := by decide!
  have e120 : FP.mul (FP.sub (widen (flit 120 1)) (dlit 45)) (dlit 2) = dlit 150 := by
    decide!
  have y1 := derating_leq _ _ h1
  have y2 := derating_leq _ _ h2
  rw [e45] at y1
  rw [e120] at y2
  generalize FP.mul (FP.sub (widen p) (dlit 45)) (dlit 2) = y at y1 y2 ⊢
  have hy0 : 0 ≤ y.key := by have := y1.2.2; rw [dlit0_key] at this; exact this
  have hyn : y.NonNeg := ⟨y1.2.1, (key_nonneg_iff y).1 hy0⟩
  -- the inner max does not change the difference
  have inner : FP.sub (dlit 150) (widen (narrow (std_max (dlit 0) y))) =
      FP.sub (dlit 150) (widen (narrow y)) := by
    rcases lt_or_eq_of_le hy0 with c | c
    · rw [std_max_of_key_pos y y1.2.1 c]
    · have hm : y.mag.val = 0 := key_eq_zero y c.symm
      rw [std_max_of_key_le y (by omega)]
      have z1 : (widen (narrow y)).mag.val = 0 :=
        convert_zero _ i32 _ (convert_zero _ i64 _ hm)
      have z2 : (widen (narrow (dlit 0))).mag.val = 0 := by decide
      rw [sub150_zero _ z1, sub150_zero _ z2]
  rw [inner]
  -- the difference is zero or positive
  have w2 : (widen (narrow y)).Leq (dlit 150) := by
    have := convert_leq binary64 i32 _ _ (convert_leq binary32 i64 _ _ y2)
    have e : widen (narrow (dlit 150)) = dlit 150 := by decide!
    unfold widen narrow
    rw [show FP.convert binary64 (FP.convert binary32 (dlit 150)) = dlit 150 from e] at this
    exact this
  have wn : (widen (narrow y)).NonNeg := convert_nonneg _ _ i32 (convert_nonneg _ _ i64 hyn)
  have x1 := const_sub_leq i64 _ _ (dlit 150) dlit150_finite w2
  have e0 : FP.sub (dlit 150) (dlit 150) = dlit 0 := by decide!
  rw [e0] at x1
  have xs := sub150_neg _ wn
  generalize FP.sub (dlit 150) (widen (narrow y)) = x at x1 xs ⊢
  have hx0 : 0 ≤ x.key := by have := x1.2.2; rw [dlit0_key] at this; exact this
  rcases lt_or_eq_of_le hx0 with c | c
  · rw [std_max_of_key_pos x x1.2.1 c]
  · have hm : x.mag.val = 0 := key_eq_zero x c.symm
    rw [std_max_of_key_le x (by omega)]
    have hsg : x.sign = false := by
      by_contra hc
      have := xs (by simpa using hc)
      omega
    have : x = dlit 0 := fp_ext _ _ (by rw [hsg]; rfl) (by rw [hm]; rfl)
    rw [this]

/-- The binade of a positive rational is determined by the two powers that enclose it. -/
theorem floorLog2_eq (n d : Nat) (hn : 0 < n) (hd : 0 < d) (L : Int)
    (h1 : (2 : ℚ) ^ L ≤ (n : ℚ) / d) (h2 : (n : ℚ) / d < (2 : ℚ) ^ (L + 1)) :
    floorLog2 n d = L := by
  obtain ⟨s1, s2⟩ := floorLog2_spec n d hn hd
  rcases lt_trichotomy (floorLog2 n d) L with c | c | c
  · have : (2 : ℚ) ^ (floorLog2 n d + 1) ≤ (2 : ℚ) ^ L :=
      zpow_le_zpow_right₀ (by norm_num) (by omega)
    linarith
  · exact c
  · have : (2 : ℚ) ^ (L + 1) ≤ (2 : ℚ) ^ (floorLog2 n d) :=
      zpow_le_zpow_right₀ (by norm_num) (by omega)
    linarith

/-- A rational that is an integer number of units in the last place rounds to it. -/
theorem roundSig_of_int (f : Fmt) (n d a : Nat) (hd : 0 < d)
    (h : (n : ℚ) / d / (2 : ℚ) ^ (ulpExp f n d) = (a : ℚ)) : roundSig f n d = a := by
  obtain ⟨N, D, hD, e1, e2⟩ := roundSig_eq f n d hd
  rw [e1]
  apply le_antisymm
  · exact roundHalfEven_le_rat _ _ _ hD (by rw [e2, h])
  · exact le_roundHalfEven_rat _ _ _ hD (by rw [e2, h])

/-- Rounding the value of a finite nonzero datum into its own format gives the datum. -/
theorem roundMag_intVal (f : Fmt) (k : Nat) (h0 : 0 < k) (hk : k < f.infMag) :
    roundMag f (FP.intVal f k) (2 ^ f.scale) = k := by
  have hP : 0 < 2 ^ f.mbits := Nat.two_pow_pos _
  have hS : 0 < 2 ^ f.scale := Nat.two_pow_pos _
  have hn := intVal_pos f k h0
  have dm := Nat.div_add_mod k (2 ^ f.mbits)
  have rm := Nat.mod_lt k hP
  have two : (2 : ℚ) ≠ 0 := by norm_num
  have castS : ((2 ^ f.scale : ℕ) : ℚ) = (2 : ℚ) ^ (f.scale : ℤ) := by
    rw [zpow_natCast]; push_cast; rfl
  by_cases hE : k / 2 ^ f.mbits = 0
  · -- subnormal
    have hv : FP.intVal f k = k := by
      unfold FP.intVal
      rw [if_pos hE]
      rw [hE] at dm
      omega
    have hkP : k < 2 ^ f.mbits := by
      rw [hE] at dm
      omega
    rw [hv] at hn ⊢
    have he : ulpExp f k (2 ^ f.scale) = -(f.scale : ℤ) := by
      obtain ⟨s1, _⟩ := floorLog2_spec k (2 ^ f.scale) h0 hS
      have kq : (k : ℚ) < (2 : ℚ) ^ (f.mbits : ℤ) := by
        rw [zpow_natCast]; exact_mod_cast hkP
      have : (2 : ℚ) ^ (floorLog2 k (2 ^ f.scale)) < (2 : ℚ) ^ ((f.mbits : ℤ) - f.scale) := by
        rw [zpow_sub₀ two, ← castS]
        calc (2 : ℚ) ^ (floorLog2 k (2 ^ f.scale)) ≤ (k : ℚ) / ((2 ^ f.scale : ℕ) : ℚ) := s1
          _ < (2 : ℚ) ^ (f.mbits : ℤ) / ((2 ^ f.scale : ℕ) : ℚ) :=
              div_lt_div_of_pos_right kq (by exact_mod_cast hS)
      have hlt : floorLog2 k (2 ^ f.scale) < (f.mbits : ℤ) - f.scale :=
        (zpow_lt_zpow_iff_right₀ (by norm_num : (1 : ℚ) < 2)).1 this
      unfold ulpExp
      omega
    have hs : roundSig f k (2 ^ f.scale) = k := by
      apply roundSig_of_int _ _ _ _ hS
      rw [he, castS, zpow_neg]
      field_simp
    unfold roundMag
    rw [hs, he]
    simp only [neg_add_cancel, Int.toNat_zero, zero_mul, zero_add]
    exact Nat.min_eq_left hk.le
  · -- normal
    have hE1 : 1 ≤ k / 2 ^ f.mbits := Nat.pos_of_ne_zero hE
    have hv : FP.intVal f k = (2 ^ f.mbits + k % 2 ^ f.mbits) * 2 ^ (k / 2 ^ f.mbits - 1) := by
      unfold FP.intVal
      rw [if_neg hE]
    generalize hEe : k / 2 ^ f.mbits = E at hv hE1 dm
    generalize hMe : k % 2 ^ f.mbits = M at hv dm rm
    have vq : ((FP.intVal f k : ℕ) : ℚ) / ((2 ^ f.scale : ℕ) : ℚ) =
        ((2 : ℚ) ^ (f.mbits : ℤ) + M) * (2 : ℚ) ^ ((E : ℤ) - 1 - f.scale) := by
      rw [hv, castS, zpow_sub₀ two]
      have : ((E : ℤ) - 1) = ((E - 1 : ℕ) : ℤ) := by omega
      rw [this]
      simp only [zpow_natCast]
      push_cast
      ring
    have pe : (0 : ℚ) < (2 : ℚ) ^ ((E : ℤ) - 1 - f.scale) := by positivity
    have Mq : (M : ℚ) < (2 : ℚ) ^ (f.mbits : ℤ) := by
      rw [zpow_natCast]; exact_mod_cast rm
    have M0 : (0 : ℚ) ≤ (M : ℚ) := by positivity
    have hF : floorLog2 (FP.intVal f k) (2 ^ f.scale) = (f.mbits : ℤ) + ((E : ℤ) - 1 - f.scale) := by
      apply floorLog2_eq _ _ hn hS
      · rw [vq, zpow_add₀ two]
        exact mul_le_mul_of_nonneg_right (by linarith) pe.le
      · rw [vq, zpow_add_one₀ two, zpow_add₀ two]
        have : ((2 : ℚ) ^ (f.mbits : ℤ) + M) * (2 : ℚ) ^ ((E : ℤ) - 1 - f.scale)
            < ((2 : ℚ) ^ (f.mbits : ℤ) * 2) * (2 : ℚ) ^ ((E : ℤ) - 1 - f.scale) :=
          mul_lt_mul_of_pos_right (by linarith) pe
        calc _ < _ := this
          _ = _ := by ring
    have he : ulpExp f (FP.intVal f k) (2 ^ f.scale) = (E : ℤ) - 1 - f.scale := by
      unfold ulpExp
      rw [hF]
      omega
    have hs : roundSig f (FP.intVal f k) (2 ^ f.scale) = 2 ^ f.mbits + M := by
      apply roundSig_of_int _ _ _ _ hS
      rw [he, vq, mul_div_assoc, div_self pe.ne', mul_one, zpow_natCast]
      push_cast
      rfl
    unfold roundMag
    rw [hs, he]
    have : ((E : ℤ) - 1 - f.scale + f.scale).toNat = E - 1 := by omega
    rw [this]
    have e2 : (E - 1) * 2 ^ f.mbits + (2 ^ f.mbits + M) = k := by
      have : (E - 1) * 2 ^ f.mbits + 2 ^ f.mbits = 2 ^ f.mbits * E := by
        obtain ⟨E', rfl⟩ : ∃ E', E = E' + 1 := ⟨E - 1, by omega⟩
        simp only [Nat.add_sub_cancel]
        ring
      omega
    rw [e2]
    exact Nat.min_eq_left hk.le

/-- Rounding a datum that is not a NaN into its own format gives the datum back. -/
theorem convert_self {f : Fmt} (x : FP f) (hm : x.mag.val ≤ f.infMag) :
    FP.convert f x = x := by
  unfold FP.convert
  rcases toExact_cases x hm with ⟨c, e⟩ | ⟨c, e⟩ | ⟨c, c', e⟩ <;> rw [e] <;> apply fp_ext
  · rfl
  · exact c.symm
  · rfl
  · exact c.symm
  · rfl
  · exact roundMag_intVal f _ c c'

/-! ## Feature extraction: the claims -/

/-- C1: for every SafetySensors input, `extract_safety_features` stores into each of the
13 positions 0..12 (the value found there afterwards does not depend on what the buffer
held before), and position 2 holds `pack_voltage * pack_current / 1000.0`: the float
product, promoted to double, divided by the double 1000.0 and narrowed to float. -/
theorem extract_safety_features_assigns_all (max : F64 → F64 → F64) (data : SafetySensors)
    (features features' : Buf) :
    (∀ i, i < 13 → extract_safety_features max data features i =
      extract_safety_features max data features' i) ∧
    extract_safety_features max data features 2 =
      narrow (FP.div (widen (FP.mul data.pack_voltage data.pack_current)) (dlit 1000)) := by
  constructor
  · intro i hi
    have : i = 0 ∨ i = 1 ∨ i = 2 ∨ i = 3 ∨ i = 4 ∨ i = 5 ∨ i = 6 ∨ i = 7 ∨ i = 8 ∨ i = 9 ∨
        i = 10 ∨ i = 11 ∨ i = 12 := by omega
    rcases this with h | h | h | h | h | h | h | h | h | h | h | h | h <;> subst h <;>
      simp [extract_safety_features, Buf.set]
  · simp [extract_safety_features, Buf.set]

/-- C2: for every SafetySensors input (NaN, infinite, negative and huge pack_temp
included) the value stored at position 12 compares `0 <= v` and `v <= 150`, with `max`
being `std::max`. -/
theorem extract_safety_features_sop_in_range (data : SafetySensors) (features : Buf) :
    FP.le (FP.posZero binary32) (extract_safety_features std_max data features 12) = true ∧
    FP.le (extract_safety_features std_max data features 12) (flit 150 1) = true := by
  have e : extract_safety_features std_max data features 12 =
      narrow (std_max (dlit 0) (FP.sub (dlit 150) (widen (narrow (std_max (dlit 0)
        (FP.mul (FP.sub (widen data.pack_temp) (dlit 45)) (dlit 2))))))) := by
    simp [extract_safety_features, Buf.set]
  rw [e]
  exact le_of_upTo150 _ (sop_range std_max (fun x _ => std_max_zero x) _ (std_max_zero _).1)

/-- C3: for every SafetySensors input and whatever two-argument `max` is in scope, the
value stored at position 12 is `max(0.0, 150.0 - temp_derating)` narrowed to float, where
the float `temp_derating` is `max(0.0, (pack_temp - 45.0) * 2.0)` computed in double. -/
theorem extract_safety_features_sop_formula (max : F64 → F64 → F64) (data : SafetySensors)
    (features : Buf) :
    extract_safety_features max data features 12 =
      narrow (max (dlit 0) (FP.sub (dlit 150) (widen (narrow (max (dlit 0)
        (FP.mul (FP.sub (widen data.pack_temp) (dlit 45)) (dlit 2))))))) := by
  simp [extract_safety_features, Buf.set]

/-- C4: for every SafetySensors input, positions 0, 1, 3, 4, 5, 7, 8, 9, 10, 11 hold the
raw fields pack_voltage, pack_current, cell_max_v, cell_min_v, pack_temp, inverter_temp,
ambient_temp, coolant_flow, iso_resistance, gas_ppm bit for bit, whatever their values. -/
theorem extract_safety_features_passthrough (max : F64 → F64 → F64) (data : SafetySensors)
    (features : Buf) :
    extract_safety_features max data features 0 = data.pack_voltage ∧
    extract_safety_features max data features 1 = data.pack_current ∧
    extract_safety_features max data features 3 = data.cell_max_v ∧
    extract_safety_features max data features 4 = data.cell_min_v ∧
    extract_safety_features max data features 5 = data.pack_temp ∧
    extract_safety_features max data features 7 = data.inverter_temp ∧
    extract_safety_features max data features 8 = data.ambient_temp ∧
    extract_safety_features max data features 9 = data.coolant_flow ∧
    extract_safety_features max data features 10 = data.iso_resistance ∧
    extract_safety_features max data features 11 = data.gas_ppm := by
  simp [extract_safety_features, Buf.set]

/-- C5: for every SafetySensors input, position 6 holds `(cell_max_v - cell_min_v) * 5.0`
(float difference, double product, narrowed to float); it compares below zero whenever
`cell_max_v < cell_min_v`; and it is the same for any two inputs, buffers and `max` that
agree on cell_max_v and cell_min_v. -/
theorem extract_safety_features_thermal_grad (max : F64 → F64 → F64) (data : SafetySensors)
    (features : Buf) :
    extract_safety_features max data features 6 =
      narrow (FP.mul (widen (FP.sub data.cell_max_v data.cell_min_v)) (dlit 5)) ∧
    (FP.lt data.cell_max_v data.cell_min_v = true →
      FP.lt (extract_safety_features max data features 6) (FP.posZero binary32) = true) ∧
    (∀ (max' : F64 → F64 → F64) (data' : SafetySensors) (features' : Buf),
      data'.cell_max_v = data.cell_max_v → data'.cell_min_v = data.cell_min_v →
      extract_safety_features max' data' features' 6 =
        extract_safety_features max data features 6) := by
  have e : ∀ (m : F64 → F64 → F64) (d : SafetySensors) (b : Buf),
      extract_safety_features m d b 6 =
        narrow (FP.mul (widen (FP.sub d.cell_max_v d.cell_min_v)) (dlit 5)) := by
    intro m d b
    simp [extract_safety_features, Buf.set]
  refine ⟨e _ _ _, ?_, ?_⟩
  · intro h
    obtain ⟨s, k, m⟩ := sub_neg_of_lt _ _ h
    rw [e]
    exact grad_neg _ s k m
  · intro m' d' b' h1 h2
    rw [e, e, h1, h2]

/-- C5, at a reading with cell_max_v = 3.95 below cell_min_v = 4.05: the feature is
negative. -/
theorem extract_safety_features_thermal_grad_witness :
    FP.lt reversed_cells.cell_max_v reversed_cells.cell_min_v = true ∧
    FP.lt (extract_safety_features std_max reversed_cells zero_features 6)
      (FP.posZero binary32) = true :=
  ⟨by decide!,
    (extract_safety_features_thermal_grad std_max reversed_cells zero_features).2.1
      (by decide!)⟩

/-- C6: `extract_health_features` stores the 8 fields soc, internal_res, cycle_count, dod,
cell_imbalance, coulombic_eff, pol_voltage, stress_index at positions 0..7 in that order,
unchanged, and stores nowhere else; `extract_driver_features` stores the 6 fields
speed_avg, brake_freq, brake_intensity, throttle_var, energy_consumption, range_est at
positions 0..5 in that order, unchanged, and stores nowhere else. -/
theorem extract_health_driver_identity (h : HealthSensors) (d : DriverSensors)
    (features : Buf) :
    (extract_health_features h features 0 = h.soc ∧
     extract_health_features h features 1 = h.internal_res ∧
     extract_health_features h features 2 = h.cycle_count ∧
     extract_health_features h features 3 = h.dod ∧
     extract_health_features h features 4 = h.cell_imbalance ∧
     extract_health_features h features 5 = h.coulombic_eff ∧
     extract_health_features h features 6 = h.pol_voltage ∧
     extract_health_features h features 7 = h.stress_index ∧
     ∀ i, 8 ≤ i → extract_health_features h features i = features i) ∧
    (extract_driver_features d features 0 = d.speed_avg ∧
     extract_driver_features d features 1 = d.brake_freq ∧
     extract_driver_features d features 2 = d.brake_intensity ∧
     extract_driver_features d features 3 = d.throttle_var ∧
     extract_driver_features d features 4 = d.energy_consumption ∧
     extract_driver_features d features 5 = d.range_est ∧
     ∀ i, 6 ≤ i → extract_driver_features d features i = features i) := by
  refine ⟨⟨?_, ?_, ?_, ?_, ?_, ?_, ?_, ?_, ?_⟩, ⟨?_, ?_, ?_, ?_, ?_, ?_, ?_⟩⟩
  all_goals first
    | (simp [extract_health_features, extract_driver_features, Buf.set]; done)
    | (intro i hi
       simp only [extract_health_features, extract_driver_features, Buf.set]
       repeat rw [if_neg (by omega)])

/-! ## Prediction interpreters: the claims -/

/-- C7, as stated, fails: index 1 does not give the bare word "WARNING". -/
theorem get_safety_label_warning_counterexample : get_safety_label 1 ≠ "WARNING" := by
  decide

/-- C7, amended: `get_safety_label` gives "NORMAL" for 0, "WARNING (Thermal/Elec Risk)"
for 1, "CRITICAL FAILURE" for 2 and "UNKNOWN" for every other integer, negative ones
included. -/
theorem get_safety_label_cases (i : Int) :
    get_safety_label i =
      if i = 0 then "NORMAL"
      else if i = 1 then "WARNING (Thermal/Elec Risk)"
      else if i = 2 then "CRITICAL FAILURE"
      else "UNKNOWN" := by
  unfold get_safety_label
  split <;> simp_all

/-- C8, as stated, fails: index 0 does not give the bare word "CITY". -/
theorem get_driver_label_city_counterexample : get_driver_label 0 ≠ "CITY" := by
  decide

/-- C8, amended: `get_driver_label` gives "CITY (Stop-and-Go)" for 0, "HIGHWAY (Steady)"
for 1, "EMERGENCY (Panic)" for 2 and "UNKNOWN" for every other integer, negative ones
included. -/
theorem get_driver_label_cases (i : Int) :
    get_driver_label i =
      if i = 0 then "CITY (Stop-and-Go)"
      else if i = 1 then "HIGHWAY (Steady)"
      else if i = 2 then "EMERGENCY (Panic)"
      else "UNKNOWN" := by
  unfold get_driver_label
  split <;> simp_all

/-- C9, as stated, fails: index 1 does not give the bare word "BAD". -/
theorem get_health_label_bad_counterexample : get_health_label 1 ≠ "BAD" := by
  decide

/-- C9, amended: `get_health_label` gives "GOOD" for 0 and "BAD (Replace/Service)" for
every other integer, negative ones included. -/
theorem get_health_label_cases (i : Int) :
    get_health_label i = if i = 0 then "GOOD" else "BAD (Replace/Service)" := by
  rfl

/-- C10: `get_health_label i` is "GOOD" exactly when i = 0 and is
"BAD (Replace/Service)" for every other i; indices 1 and 0 give
"BAD (Replace/Service)" and "GOOD". -/
theorem get_health_label_good_iff :
    (∀ i : Int, get_health_label i = "GOOD" ↔ i = 0) ∧
    (∀ i : Int, i ≠ 0 → get_health_label i = "BAD (Replace/Service)") ∧
    get_health_label 1 = "BAD (Replace/Service)" ∧
    get_health_label 0 = "GOOD" := by
  refine ⟨?_, ?_, by decide, by decide⟩
  · intro i
    unfold get_health_label
    by_cases h : i = 0
    · simp [h]
    · simp only [h, if_false, iff_false]
      decide
  · intro i h
    unfold get_health_label
    rw [if_neg h]

/-- C11: `get_driver_label(2)` is "EMERGENCY (Panic)"; every index outside 0, 1, 2 (index 5
and every negative index among them) gives "UNKNOWN"; and "UNKNOWN" is given only for
indices outside 0, 1, 2. -/
theorem get_driver_label_unknown_iff :
    get_driver_label 2 = "EMERGENCY (Panic)" ∧
    get_driver_label 5 = "UNKNOWN" ∧
    (∀ i : Int, get_driver_label i = "UNKNOWN" ↔ (i ≠ 0 ∧ i ≠ 1 ∧ i ≠ 2)) ∧
    (∀ i : Int, i < 0 → get_driver_label i = "UNKNOWN") := by
  have key : ∀ i : Int, get_driver_label i = "UNKNOWN" ↔ (i ≠ 0 ∧ i ≠ 1 ∧ i ≠ 2) := by
    intro i
    unfold get_driver_label
    split
    · simp
    · simp
    · simp
    · rename_i h0 h1 h2
      simp only [true_iff]
      exact ⟨h0, h1, h2⟩
  refine ⟨by decide, by decide, key, ?_⟩
  intro i hi
  rw [key]
  omega

/-- C12: the three label functions are total on the C++ type int: for every integer,
INT_MIN, INT_MAX and the negative ones included, each returns a nonempty string out of
its own fixed finite set of labels. -/
theorem labels_total (i : Int) :
    (get_safety_label i ∈
        ["NORMAL", "WARNING (Thermal/Elec Risk)", "CRITICAL FAILURE", "UNKNOWN"] ∧
      get_safety_label i ≠ "") ∧
    (get_health_label i ∈ ["GOOD", "BAD (Replace/Service)"] ∧ get_health_label i ≠ "") ∧
    (get_driver_label i ∈
        ["CITY (Stop-and-Go)", "HIGHWAY (Steady)", "EMERGENCY (Panic)", "UNKNOWN"] ∧
      get_driver_label i ≠ "") ∧
    (get_safety_label INT_MIN = "UNKNOWN" ∧ get_safety_label INT_MAX = "UNKNOWN") ∧
    (get_health_label INT_MIN = "BAD (Replace/Service)" ∧
      get_health_label INT_MAX = "BAD (Replace/Service)") ∧
    (get_driver_label INT_MIN = "UNKNOWN" ∧ get_driver_label INT_MAX = "UNKNOWN") := by
  refine ⟨?_, ?_, ?_, by decide, by decide, by decide⟩
  · unfold get_safety_label
    split <;> exact ⟨by simp, by decide⟩
  · unfold get_health_label
    split <;> exact ⟨by simp, by decide⟩
  · unfold get_driver_label
    split <;> exact ⟨by simp, by decide⟩

/-- C15: the configured identifiers are Safety = (0x100, 0x101, 0x102), Health =
(0x200, 0x201), Driver = (0x300, 0x301); within each domain they ascend strictly in the
order of their suffixes; the seven are pairwise distinct; and the update period is
100 ms. -/
theorem can_ids_allocation :
    safety_ids = [0x100, 0x101, 0x102] ∧ health_ids = [0x200, 0x201] ∧
    driver_ids = [0x300, 0x301] ∧
    safety_ids.Pairwise (· < ·) ∧ health_ids.Pairwise (· < ·) ∧
    driver_ids.Pairwise (· < ·) ∧
    (safety_ids ++ health_ids ++ driver_ids).Nodup ∧
    (∀ x ∈ safety_ids, x ∉ health_ids ∧ x ∉ driver_ids) ∧
    (∀ x ∈ health_ids, x ∉ driver_ids) ∧
    UPDATE_RATE_MS = 100 := by
  decide

/-- C16: in each domain the feature vector at 4 bytes a value exceeds the budget of 8
bytes for each configured identifier: Safety 52 against 24, Health 32 against 16,
Driver 24 against 16. The vector lengths 13, 8 and 6 are the numbers of positions the
extractors store into: every position below the length is overwritten and no other. -/
theorem frame_budget_insufficient (max : F64 → F64 → F64) (s : SafetySensors)
    (h : HealthSensors) (d : DriverSensors) (features features' : Buf) :
    (bytes_per_value * safety_feature_count = 52 ∧
      safety_ids.length * frame_capacity = 24 ∧
      safety_ids.length * frame_capacity < bytes_per_value * safety_feature_count) ∧
    (bytes_per_value * health_feature_count = 32 ∧
      health_ids.length * frame_capacity = 16 ∧
      health_ids.length * frame_capacity < bytes_per_value * health_feature_count) ∧
    (bytes_per_value * driver_feature_count = 24 ∧
      driver_ids.length * frame_capacity = 16 ∧
      driver_ids.length * frame_capacity < bytes_per_value * driver_feature_count) ∧
    (∀ i, (i < safety_feature_count → extract_safety_features max s features i =
        extract_safety_features max s features' i) ∧
      (safety_feature_count ≤ i → extract_safety_features max s features i = features i)) ∧
    (∀ i, (i < health_feature_count → extract_health_features h features i =
        extract_health_features h features' i) ∧
      (health_feature_count ≤ i → extract_health_features h features i = features i)) ∧
    (∀ i, (i < driver_feature_count → extract_driver_features d features i =
        extract_driver_features d features' i) ∧
      (driver_feature_count ≤ i → extract_driver_features d features i = features i)) := by
  refine ⟨by decide, by decide, by decide, ?_, ?_, ?_⟩ <;> intro i <;> constructor <;>
    intro hi <;>
    simp only [safety_feature_count, health_feature_count, driver_feature_count] at hi
  · have : i = 0 ∨ i = 1 ∨ i = 2 ∨ i = 3 ∨ i = 4 ∨ i = 5 ∨ i = 6 ∨ i = 7 ∨ i = 8 ∨ i = 9 ∨
        i = 10 ∨ i = 11 ∨ i = 12 := by omega
    rcases this with h | h | h | h | h | h | h | h | h | h | h | h | h <;> subst h <;>
      simp [extract_safety_features, Buf.set]
  · simp only [extract_safety_features, Buf.set]
    repeat rw [if_neg (by omega)]
  · have : i = 0 ∨ i = 1 ∨ i = 2 ∨ i = 3 ∨ i = 4 ∨ i = 5 ∨ i = 6 ∨ i = 7 := by omega
    rcases this with h | h | h | h | h | h | h | h <;> subst h <;>
      simp [extract_health_features, Buf.set]
  · simp only [extract_health_features, Buf.set]
    repeat rw [if_neg (by omega)]
  · have : i = 0 ∨ i = 1 ∨ i = 2 ∨ i = 3 ∨ i = 4 ∨ i = 5 := by omega
    rcases this with h | h | h | h | h | h <;> subst h <;>
      simp [extract_driver_features, Buf.set]
  · simp only [extract_driver_features, Buf.set]
    repeat rw [if_neg (by omega)]

/-- C20: each extractor stores only into its own index range and overwrites all of it:
`extract_safety_features` leaves every element above index 12 as it was (above 7 for
`extract_health_features`, above 5 for `extract_driver_features`), and the values at
the indices it stores into do not depend on what the buffer held before. -/
theorem extractors_frame (max : F64 → F64 → F64) (s : SafetySensors) (h : HealthSensors)
    (d : DriverSensors) (features features' : Buf) (i : Nat) :
    ((12 < i → extract_safety_features max s features i = features i) ∧
      (i ≤ 12 → extract_safety_features max s features i =
        extract_safety_features max s features' i)) ∧
    ((7 < i → extract_health_features h features i = features i) ∧
      (i ≤ 7 → extract_health_features h features i =
        extract_health_features h features' i)) ∧
    ((5 < i → extract_driver_features d features i = features i) ∧
      (i ≤ 5 → extract_driver_features d features i =
        extract_driver_features d features' i)) := by
  refine ⟨⟨?_, ?_⟩, ⟨?_, ?_⟩, ⟨?_, ?_⟩⟩ <;> intro hi
  · simp only [extract_safety_features, Buf.set]
    repeat rw [if_neg (by omega)]
  · have : i = 0 ∨ i = 1 ∨ i = 2 ∨ i = 3 ∨ i = 4 ∨ i = 5 ∨ i = 6 ∨ i = 7 ∨ i = 8 ∨ i = 9 ∨
        i = 10 ∨ i = 11 ∨ i = 12 := by omega
    rcases this with h | h | h | h | h | h | h | h | h | h | h | h | h <;> subst h <;>
      simp [extract_safety_features, Buf.set]
  · simp only [extract_health_features, Buf.set]
    repeat rw [if_neg (by omega)]
  · have : i = 0 ∨ i = 1 ∨ i = 2 ∨ i = 3 ∨ i = 4 ∨ i = 5 ∨ i = 6 ∨ i = 7 := by omega
    rcases this with h | h | h | h | h | h | h | h <;> subst h <;>
      simp [extract_health_features, Buf.set]
  · simp only [extract_driver_features, Buf.set]
    repeat rw [if_neg (by omega)]
  · have : i = 0 ∨ i = 1 ∨ i = 2 ∨ i = 3 ∨ i = 4 ∨ i = 5 := by omega
    rcases this with h | h | h | h | h | h <;> subst h <;>
      simp [extract_driver_features, Buf.set]

/-! ## Fragmentation and reassembly -/

theorem float_bits_lt (x : F32) : float_bits x < 4294967296 := by
  have e : 2 ^ (binary32.ebits + binary32.mbits) = 2147483648 := by decide
  have h : x.mag.val < 2147483648 := lt_of_lt_of_eq x.mag.isLt e
  unfold float_bits
  split <;> omega

/-- Four bytes of a float, reinterpreted, give the float back bit for bit. -/
theorem float_of_bytes_float_bytes (x : F32) :
    float_of_bytes (float_bits x % 256) (float_bits x / 256 % 256)
      (float_bits x / 65536 % 256) (float_bits x / 16777216 % 256) = x := by
  have hb := float_bits_lt x
  have e : float_bits x % 256 + 256 * (float_bits x / 256 % 256) +
      65536 * (float_bits x / 65536 % 256) + 16777216 * (float_bits x / 16777216 % 256) =
      float_bits x := by omega
  have e2 : 2 ^ (binary32.ebits + binary32.mbits) = 2147483648 := by decide
  have h : x.mag.val < 2147483648 := lt_of_lt_of_eq x.mag.isLt e2
  apply fp_ext
  · show decide ((float_bits x % 256 + 256 * (float_bits x / 256 % 256) +
      65536 * (float_bits x / 65536 % 256) + 16777216 * (float_bits x / 16777216 % 256)) /
      2 ^ 31 % 2 = 1) = x.sign
    rw [e]
    unfold float_bits
    cases hs : x.sign
    · simp only [Bool.false_eq_true, if_false, decide_eq_false_iff_not]
      omega
    · simp only [if_true, decide_eq_true_eq]
      omega
  · show (float_bits x % 256 + 256 * (float_bits x / 256 % 256) +
      65536 * (float_bits x / 65536 % 256) + 16777216 * (float_bits x / 16777216 % 256)) %
      2 ^ 31 = x.mag.val
    rw [e]
    unfold float_bits
    split <;> omega

theorem floats_of_bytes_append (x : F32) (rest : List Nat) :
    floats_of_bytes (float_bytes x ++ rest) = x :: floats_of_bytes rest := by
  simp only [float_bytes, List.cons_append, List.nil_append, floats_of_bytes]
  rw [float_of_bytes_float_bytes]
  rfl

/-- Reinterpreting the byte representation of a vector gives the vector back. -/
theorem floats_of_bytes_vector_bytes (v : List F32) : floats_of_bytes (vector_bytes v) = v := by
  induction v with
  | nil => rfl
  | cons x xs ih =>
    unfold vector_bytes at ih ⊢
    rw [List.flatMap_cons, floats_of_bytes_append, ih]

theorem vector_bytes_length (v : List F32) :
    (vector_bytes v).length = bytes_per_value * v.length := by
  induction v with
  | nil => rfl
  | cons x xs ih =>
    unfold vector_bytes at ih ⊢
    rw [List.flatMap_cons, List.length_append, ih]
    simp [float_bytes, bytes_per_value]
    omega

/-- The payloads of the frames, in frame order, are the bytes, when the identifiers
suffice. -/
theorem fragment_bytes_payloads (ids : List Nat) : ∀ bytes : List Nat,
    bytes.length ≤ ids.length * frame_capacity →
    (fragment_bytes ids bytes).flatMap Frame.payload = bytes := by
  induction ids with
  | nil =>
    intro bytes h
    simp at h
    subst h
    rfl
  | cons id ids ih =>
    intro bytes h
    unfold fragment_bytes
    by_cases hb : bytes = []
    · rw [if_pos hb, hb]; rfl
    · rw [if_neg hb, List.flatMap_cons]
      have hl : (bytes.drop frame_capacity).length ≤ ids.length * frame_capacity := by
        rw [List.length_drop]
        simp only [List.length_cons, Nat.add_mul] at h
        omega
      rw [ih _ hl]
      exact List.take_append_drop _ _

/-- No payload exceeds the frame capacity. -/
theorem fragment_bytes_capacity (ids : List Nat) : ∀ bytes : List Nat,
    ∀ fr ∈ fragment_bytes ids bytes, fr.payload.length ≤ frame_capacity := by
  induction ids with
  | nil => intro bytes fr h; simp [fragment_bytes] at h
  | cons id ids ih =>
    intro bytes fr h
    unfold fragment_bytes at h
    by_cases hb : bytes = []
    · rw [if_pos hb] at h; simp at h
    · rw [if_neg hb] at h
      rcases List.mem_cons.1 h with h | h
      · rw [h]
        simp only [List.length_take]
        omega
      · exact ih _ fr h

/-- Every frame carries an identifier of the list, and the frames keep the list's order. -/
theorem fragment_bytes_sorted (ids : List Nat) (hs : ids.Pairwise (· < ·)) :
    ∀ bytes : List Nat,
    (∀ fr ∈ fragment_bytes ids bytes, fr.identifier ∈ ids) ∧
    (fragment_bytes ids bytes).Sorted (fun a b => a.identifier ≤ b.identifier) := by
  induction ids with
  | nil => intro bytes; simp [fragment_bytes]
  | cons id ids ih =>
    intro bytes
    obtain ⟨h1, h2⟩ := List.pairwise_cons.1 hs
    unfold fragment_bytes
    by_cases hb : bytes = []
    · rw [if_pos hb]; simp
    · rw [if_neg hb]
      obtain ⟨m, s⟩ := ih h2 (bytes.drop frame_capacity)
      constructor
      · intro fr hfr
        rcases List.mem_cons.1 hfr with h | h
        · rw [h]; simp
        · exact List.mem_cons_of_mem _ (m fr h)
      · exact List.pairwise_cons.2 ⟨fun fr hfr => (h1 _ (m fr hfr)).le, s⟩

/-! ## Scenarios, derating and fragmentation: the claims -/

theorem sop_eq (max : F64 → F64 → F64) (data : SafetySensors) (features : Buf) :
    extract_safety_features max data features 12 =
      narrow (max (dlit 0) (FP.sub (dlit 150) (widen (narrow (max (dlit 0)
        (FP.mul (FP.sub (widen data.pack_temp) (dlit 45)) (dlit 2))))))) := by
  simp [extract_safety_features, Buf.set]

/-- C13, as stated, fails: at the scenario reading position 6 does not hold the float
0.5. -/
theorem scenario_thermal_grad_counterexample :
    extract_safety_features std_max scenario zero_features 6 ≠ flit 5 10 := by
  decide!

/-- C13, amended: at the scenario reading position 2 holds 19.0 and position 12 holds
150.0 (with either definition of `max`), and position 6 holds the float 12 units in
the last place above 0.5 (0.50000072), whatever the buffer held before. -/
theorem scenario_features (max : F64 → F64 → F64) (features : Buf) :
    extract_safety_features max scenario features 2 = flit 19 1 ∧
    extract_safety_features max scenario features 6 = fbits false 126 12 ∧
    flit 5 10 = fbits false 126 0 ∧
    extract_safety_features std_max scenario features 12 = flit 150 1 ∧
    extract_safety_features avr_max scenario features 12 = flit 150 1 := by
  have e2 : extract_safety_features max scenario features 2 =
      narrow (FP.div (widen (FP.mul scenario.pack_voltage scenario.pack_current))
        (dlit 1000)) := by
    simp [extract_safety_features, Buf.set]
  have e6 : extract_safety_features max scenario features 6 =
      narrow (FP.mul (widen (FP.sub scenario.cell_max_v scenario.cell_min_v)) (dlit 5)) := by
    simp [extract_safety_features, Buf.set]
  rw [e2, e6, sop_eq, sop_eq]
  exact ⟨by decide!, by decide!, by decide!, by decide!, by decide!⟩

/-- C14: with `std::max`, position 12 holds 150.0 when `pack_temp <= 45`, holds
`150.0 - (pack_temp - 45.0) * 2.0` (evaluated in float arithmetic as the code does)
when `45 <= pack_temp <= 120`, and holds +0.0 when `pack_temp >= 120`; at the scenario
reading with the pack at 60 the derating is 30.0 and position 12 holds 120.0. -/
theorem sop_piecewise (data : SafetySensors) (features : Buf) :
    (FP.le data.pack_temp (flit 45 1) = true →
      extract_safety_features std_max data features 12 = flit 150 1) ∧
    (FP.le (flit 45 1) data.pack_temp = true → FP.le data.pack_temp (flit 120 1) = true →
      extract_safety_features std_max data features 12 =
        narrow (FP.sub (dlit 150) (widen (narrow
          (FP.mul (FP.sub (widen data.pack_temp) (dlit 45)) (dlit 2)))))) ∧
    (FP.le (flit 120 1) data.pack_temp = true →
      extract_safety_features std_max data features 12 = flit 0 1) ∧
    narrow (std_max (dlit 0)
      (FP.mul (FP.sub (widen scenario_hot.pack_temp) (dlit 45)) (dlit 2))) = flit 30 1 ∧
    extract_safety_features std_max scenario_hot features 12 = flit 120 1 := by
  refine ⟨?_, ?_, ?_, by decide!, ?_⟩
  · intro h
    rw [sop_eq]
    exact sop_cold _ ((leq_iff _ _).1 h)
  · intro h1 h2
    rw [sop_eq]
    exact sop_linear _ ((leq_iff _ _).1 h1) ((leq_iff _ _).1 h2)
  · intro h
    rw [sop_eq]
    exact sop_hot _ ((leq_iff _ _).1 h)
  · rw [sop_eq]
    decide!

/-- Float resolution of the derating: at the smallest float above 45 the derating of
2^-17 is lost when the difference is narrowed to float, and position 12 holds 150.0. -/
theorem sop_just_above_45 (features : Buf) :
    flit 45 1 = fbits false 132 3407872 ∧
    extract_safety_features std_max
      { scenario with pack_temp := fbits false 132 3407873 } features 12 = flit 150 1 := by
  rw [sop_eq]
  exact ⟨by decide!, by decide!⟩

/-- C14, at the scenario reading with the pack at 60: it lies between 45 and 120 and
position 12 holds the float value of `150.0 - (60 - 45.0) * 2.0`. -/
theorem sop_piecewise_witness :
    FP.le (flit 45 1) scenario_hot.pack_temp = true ∧
    FP.le scenario_hot.pack_temp (flit 120 1) = true ∧
    extract_safety_features std_max scenario_hot zero_features 12 =
      narrow (FP.sub (dlit 150) (widen (narrow
        (FP.mul (FP.sub (widen scenario_hot.pack_temp) (dlit 45)) (dlit 2))))) :=
  ⟨by decide!, by decide!,
    (sop_piecewise scenario_hot zero_features).2.1 (by decide!) (by decide!)⟩

/-- C19: with `std::max`, for two readings a and b with `a.pack_temp <= b.pack_temp`,
whatever their other fields and the buffers, the value stored at position 12 for b is
`<=` the value stored for a. -/
theorem sop_monotone (a b : SafetySensors) (features features' : Buf)
    (h : FP.le a.pack_temp b.pack_temp = true) :
    FP.le (extract_safety_features std_max b features' 12)
      (extract_safety_features std_max a features 12) = true := by
  rw [sop_eq, sop_eq, leq_iff]
  exact sop_antitone _ _ ((leq_iff _ _).1 h)

/-- C19, at the two scenario readings: the pack at 40 and the pack at 60. -/
theorem sop_monotone_witness :
    FP.le scenario.pack_temp scenario_hot.pack_temp = true ∧
    FP.le (extract_safety_features std_max scenario_hot zero_features 12)
      (extract_safety_features std_max scenario zero_features 12) = true :=
  ⟨by decide!, sop_monotone scenario scenario_hot zero_features zero_features (by decide!)⟩

/-- C17: for identifiers in strictly ascending order and a feature vector whose
4 bytes a value fit the budget of 8 bytes an identifier, the fragmenter returns frames
of at most 8 payload bytes, addressed by identifiers of the list, and concatenating the
payloads in ascending identifier order and reinterpreting them as floats gives the
vector back bit for bit. -/
theorem fragment_reassemble_roundtrip (ids : List Nat) (v : List F32)
    (hs : ids.Pairwise (· < ·))
    (hfit : bytes_per_value * v.length ≤ ids.length * frame_capacity) :
    ∃ frames, fragment ids v = Except.ok frames ∧
      (∀ fr ∈ frames, fr.payload.length ≤ frame_capacity ∧ fr.identifier ∈ ids) ∧
      reassemble frames = v := by
  refine ⟨fragment_bytes ids (vector_bytes v), ?_, ?_, ?_⟩
  · unfold fragment
    rw [if_neg (by omega)]
  · intro fr hfr
    exact ⟨fragment_bytes_capacity ids _ fr hfr, (fragment_bytes_sorted ids hs _).1 fr hfr⟩
  · unfold reassemble
    rw [List.Sorted.insertionSort_eq (fragment_bytes_sorted ids hs _).2,
      fragment_bytes_payloads ids _ (by rw [vector_bytes_length]; exact hfit),
      floats_of_bytes_vector_bytes]

/-- C17, at the Safety identifiers and a vector of two values (8 bytes of the 24). -/
theorem fragment_reassemble_roundtrip_witness :
    ∃ frames, fragment safety_ids [flit 380 1, flit 50 1] = Except.ok frames ∧
      (∀ fr ∈ frames, fr.payload.length ≤ frame_capacity ∧ fr.identifier ∈ safety_ids) ∧
      reassemble frames = [flit 380 1, flit 50 1] :=
  fragment_reassemble_roundtrip safety_ids [flit 380 1, flit 50 1] (by decide) (by decide)

/-- C18: a vector whose 4 bytes a value exceed 8 bytes an identifier makes the
fragmenter report EncodingOverflow; whenever it returns frames instead, their payloads
are all the bytes of the vector, none dropped; and with the configured identifiers the
13-value Safety vector, the 8-value Health vector and the 6-value Driver vector are
each reported as EncodingOverflow. -/
theorem fragment_overflow :
    (∀ (ids : List Nat) (v : List F32),
      ids.length * frame_capacity < bytes_per_value * v.length →
      fragment ids v = Except.error FragmentError.EncodingOverflow) ∧
    (∀ (ids : List Nat) (v : List F32) (frames : List Frame),
      fragment ids v = Except.ok frames →
      frames.flatMap Frame.payload = vector_bytes v) ∧
    (∀ (max : F64 → F64 → F64) (s : SafetySensors) (features : Buf),
      fragment safety_ids
        (feature_vector (extract_safety_features max s features) safety_feature_count) =
        Except.error FragmentError.EncodingOverflow) ∧
    (∀ (h : HealthSensors) (features : Buf),
      fragment health_ids
        (feature_vector (extract_health_features h features) health_feature_count) =
        Except.error FragmentError.EncodingOverflow) ∧
    (∀ (d : DriverSensors) (features : Buf),
      fragment driver_ids
        (feature_vector (extract_driver_features d features) driver_feature_count) =
        Except.error FragmentError.EncodingOverflow) := by
  have key : ∀ (ids : List Nat) (v : List F32),
      ids.length * frame_capacity < bytes_per_value * v.length →
      fragment ids v = Except.error FragmentError.EncodingOverflow := by
    intro ids v h
    unfold fragment
    rw [if_pos h]
  have len : ∀ (b : Buf) (n : Nat), (feature_vector b n).length = n := by
    intro b n
    simp [feature_vector]
  refine ⟨key, ?_, ?_, ?_, ?_⟩
  · intro ids v frames h
    unfold fragment at h
    by_cases c : ids.length * frame_capacity < bytes_per_value * v.length
    · rw [if_pos c] at h
      cases h
    · rw [if_neg c] at h
      injection h with h
      rw [← h]
      exact fragment_bytes_payloads ids _ (by rw [vector_bytes_length]; omega)
  · intro max s features
    exact key _ _ (by rw [len]; decide)
  · intro h features
    exact key _ _ (by rw [len]; decide)
  · intro d features
    exact key _ _ (by rw [len]; decide)

end EVGuardian
